import Mathlib

/-!
Verification of the tomato-nvram settings-script generator
(`src/tomato-nvram.py`) against its specification.

The Python source is shallowly embedded over `List Char` strings.
Python's `str` methods and the regular expressions of the source are
translated to executable Lean functions; the translation is ASCII-faithful
(Python's Unicode-aware `\w`, `\s`, `str.lower` etc. are modelled on the
ASCII range, which covers every character class the program manipulates).
Where Python iterates a `set` (whose order is unspecified), the model fixes
a deterministic order and the theorems below avoid depending on it.
-/

namespace TomatoNvram

abbrev Str := List Char

/-! ### Character constants and classes

Named constants for the shell-quoting characters, so that the embedding
of `Item.quoted` reads close to the source. -/

def cNL : Char := Char.ofNat 10   -- newline
def cDQ : Char := Char.ofNat 34   -- double quote
def cSQ : Char := Char.ofNat 39   -- single quote
def cBS : Char := Char.ofNat 92   -- backslash
def cBT : Char := Char.ofNat 96   -- backtick
def cDol : Char := '$'
def cGT : Char := '>'
def cUnd : Char := '_'
def cLBr : Char := Char.ofNat 123 -- left curly brace
def cRBr : Char := Char.ofNat 125 -- right curly brace

def isLowerA (c : Char) : Bool := 'a' ≤ c && c ≤ 'z'
def isUpperA (c : Char) : Bool := 'A' ≤ c && c ≤ 'Z'
def isDigitA (c : Char) : Bool := '0' ≤ c && c ≤ '9'

/-- Python `\w` (ASCII): letters, digits, underscore. -/
def isWordA (c : Char) : Bool := isLowerA c || isUpperA c || isDigitA c || c = cUnd

/-- Python `\s` (ASCII): space, tab, newline, carriage return, vertical tab, form feed. -/
def isPySpace (c : Char) : Bool :=
  c = ' ' || c = Char.ofNat 9 || c = cNL || c = Char.ofNat 13 ||
  c = Char.ofNat 11 || c = Char.ofNat 12

/-! ### The Quoter: `Item.quoted`  (source lines 223-243)

`special_chars = re.compile(r'["\\`]|\$(?=\S)')`: a double quote, backslash
or backtick anywhere, or a dollar sign followed by a non-whitespace
character. -/

/-- `Item.special_chars.search(value)` as a Boolean: does the value contain a
character requiring escaping inside double quotes?  A final dollar sign has
no following character, so the `(?=\S)` lookahead fails there. -/
def specialFound : Str → Bool
  | [] => false
  | [c] => c = cDQ || c = cBS || c = cBT
  | c :: d :: rest =>
    if c = cDQ || c = cBS || c = cBT then true
    else if c = cDol && !isPySpace d then true
    else specialFound (d :: rest)

/-- `Item.list_break.subn('\\\n', value)`: the pattern `(?<=>)(?!$)` matches
the empty position after each '>' that is not at the end of the string
(Python's `$` also matches just before a final newline).  Returns the
substituted string and the number of substitutions. -/
def listBreakSub : Str → Str × Nat
  | [] => ([], 0)
  | c :: rest =>
    let r := listBreakSub rest
    if c = cGT && !(rest = []) && !(rest = [cNL]) then (c :: cBS :: cNL :: r.1, r.2 + 1)
    else (c :: r.1, r.2)

/-- `Item.special_chars.sub(r'\\\g<0>', value)`: prepend a backslash to every
occurrence of a special character (the `\$(?=\S)` alternative matches just
the dollar sign; the lookahead is not part of the match and is decided on
the original text). -/
def escSpecial : Str → Str
  | [] => []
  | [c] => if c = cDQ || c = cBS || c = cBT then [cBS, c] else [c]
  | c :: d :: rest =>
    if c = cDQ || c = cBS || c = cBT then cBS :: c :: escSpecial (d :: rest)
    else if c = cDol && !isPySpace d then cBS :: c :: escSpecial (d :: rest)
    else c :: escSpecial (d :: rest)

/-- The characters `shlex.quote` leaves unquoted: ASCII word characters
and `@ % + = : , .` slash and hyphen (`_find_unsafe` finds nothing). -/
def shlexSafe (c : Char) : Bool :=
  isWordA c || c = '@' || c = '%' || c = '+' || c = '=' || c = ':' ||
  c = ',' || c = '.' || c = '/' || c = '-'

/-- `s.replace("'", "'\"'\"'")` used by `shlex.quote`. -/
def sqReplace : Str → Str
  | [] => []
  | c :: rest => if c = cSQ then cSQ :: cDQ :: cSQ :: cDQ :: cSQ :: sqReplace rest
                 else c :: sqReplace rest

/-- `shlex.quote(s)` (Python standard library). -/
def shlexQuote (v : Str) : Str :=
  if v = [] then [cSQ, cSQ]
  else if v.all shlexSafe then v
  else cSQ :: (sqReplace v ++ [cSQ])

/-- `Item.quoted(value)` (source lines 223-239): choose a quoting strategy.
1. newline in the value and no special characters: double quotes with a
   leading backslash-newline;
2. a tomato list (contains an interior '>') and no special characters:
   double quotes, broken after each '>';
3. a single quote in the value: double quotes with special chars escaped;
4. otherwise `shlex.quote`, except that an empty value is returned bare. -/
def quoted (v : Str) : Str :=
  if cNL ∈ v ∧ specialFound v = false then cDQ :: cBS :: cNL :: (v ++ [cDQ])
  else
    let lb := listBreakSub v
    if lb.2 ≠ 0 ∧ specialFound v = false then cDQ :: cBS :: cNL :: (lb.1 ++ [cDQ])
    else if cSQ ∈ v then cDQ :: (escSpecial v ++ [cDQ])
    else if v = [] then [] else shlexQuote v

/-- `Item.command`: `'nvram set {}={}'.format(name, quoted(value))`. -/
def command (n v : Str) : Str := "nvram set ".data ++ n ++ '=' :: quoted v

/-! ### POSIX shell unquoting (the specification side of claim C1)

A single-word parser with no expansions performed, written as the usual
three-mode machine (unquoted, inside single quotes, inside double quotes).
It returns `none` when the word is unterminated, spans several words, or
contains an active expansion (command substitution or parameter
expansion), i.e. whenever the literal text could not be reconstructed. -/

/-- Characters after `$` that start an expansion inside double quotes:
a name character, a positional or special parameter, `{` or `(`. -/
def dqExpStart (c : Char) : Bool :=
  isWordA c || c = cLBr || c = '(' || c = '@' || c = '*' || c = '#' ||
  c = '?' || c = '-' || c = cDol || c = '!'

/-- Shell metacharacters and word-breaking whitespace: hitting one of these
unquoted means the rendered text is not one literal word. -/
def wordBreak (c : Char) : Bool :=
  isPySpace c || c = '|' || c = '&' || c = ';' || c = '<' || c = cGT ||
  c = '(' || c = ')'

/-- Parsing mode: unquoted, inside single quotes, inside double quotes. -/
inductive QMode where
  | norm
  | insq
  | indq
deriving DecidableEq, Repr

/-- Unquote one shell word (mode machine).  In `norm` mode a quote switches
mode, a backslash escapes the next character (backslash-newline vanishes),
backticks, dollars, metacharacters and whitespace are rejected.  In `insq`
mode everything up to the next single quote is literal.  In `indq` mode a
backslash before one of `$` backtick `"` `\` escapes it, backslash-newline
vanishes, other backslashes are literal, and backticks or active dollar
expansions are rejected. -/
def unqM : QMode → Str → Option Str
  | .norm, [] => some []
  | .norm, [c] =>
    if c = cSQ then none
    else if c = cDQ then none
    else if c = cBS then none
    else if c = cBT || c = cDol then none
    else if wordBreak c then none
    else some [c]
  | .norm, c :: d :: rest =>
    if c = cSQ then unqM .insq (d :: rest)
    else if c = cDQ then unqM .indq (d :: rest)
    else if c = cBS then
      (if d = cNL then unqM .norm rest else (unqM .norm rest).map (d :: ·))
    else if c = cBT || c = cDol then none
    else if wordBreak c then none
    else (unqM .norm (d :: rest)).map (c :: ·)
  | .insq, [] => none
  | .insq, c :: rest =>
    if c = cSQ then unqM .norm rest else (unqM .insq rest).map (c :: ·)
  | .indq, [] => none
  | .indq, [c] => if c = cDQ then some [] else none
  | .indq, c :: d :: rest =>
    if c = cDQ then unqM .norm (d :: rest)
    else if c = cBS then
      if d = cDol || d = cBT || d = cDQ || d = cBS then (unqM .indq rest).map (d :: ·)
      else if d = cNL then unqM .indq rest
      else (unqM .indq (d :: rest)).map (cBS :: ·)
    else if c = cBT then none
    else if c = cDol then
      (if dqExpStart d then none else (unqM .indq (d :: rest)).map (cDol :: ·))
    else (unqM .indq (d :: rest)).map (c :: ·)

/-- Unquote a complete shell word starting in unquoted context. -/
def shellUnquote (l : Str) : Option Str := unqM .norm l

/-! ### Round-trip lemmas for the Quoter (claim C1) -/

theorem unqM_indq_close (l : Str) : unqM .indq (cDQ :: l) = unqM .norm l := by
  cases l <;> simp [unqM]

theorem unqM_indq_cons_normal {c : Char} (l : Str)
    (h1 : c ≠ cDQ) (h2 : c ≠ cBS) (h3 : c ≠ cBT) (h4 : c ≠ cDol) :
    unqM .indq (c :: l) = (unqM .indq l).map (c :: ·) := by
  cases l with
  | nil => simp [unqM, h1]
  | cons d t => rw [unqM]; simp [h1, h2, h3, h4]

theorem unqM_indq_bs_nl (l : Str) : unqM .indq (cBS :: cNL :: l) = unqM .indq l := by
  rw [unqM]
  have h1 : cBS ≠ cDQ := by decide
  have h2 : (cNL = cDol || cNL = cBT || cNL = cDQ || cNL = cBS) = false := by decide
  simp [h1, h2]

theorem unqM_indq_bs_esc {d : Char} (l : Str)
    (h : d = cDol ∨ d = cBT ∨ d = cDQ ∨ d = cBS) :
    unqM .indq (cBS :: d :: l) = (unqM .indq l).map (d :: ·) := by
  rw [unqM]
  have hbs : cBS ≠ cDQ := by decide
  have hd : (d = cDol || d = cBT || d = cDQ || d = cBS) = true := by
    rcases h with h | h | h | h <;> simp [h]
  simp [hbs, hd]

theorem unqM_indq_dollar {d : Char} (l : Str) (h : dqExpStart d = false) :
    unqM .indq (cDol :: d :: l) = (unqM .indq (d :: l)).map (cDol :: ·) := by
  rw [unqM]
  have h1 : cDol ≠ cDQ := by decide
  have h2 : cDol ≠ cBS := by decide
  have h3 : cDol ≠ cBT := by decide
  simp [h1, h2, h3, h]

theorem pySpace_cases {c : Char} (h : isPySpace c = true) :
    c = ' ' ∨ c = Char.ofNat 9 ∨ c = cNL ∨ c = Char.ofNat 13 ∨
    c = Char.ofNat 11 ∨ c = Char.ofNat 12 := by
  simp only [isPySpace, Bool.or_eq_true, decide_eq_true_eq] at h
  tauto

theorem pySpace_not_dqExp {c : Char} (h : isPySpace c = true) : dqExpStart c = false := by
  rcases pySpace_cases h with h | h | h | h | h | h <;> subst h <;> decide

theorem pySpace_not_sp {c : Char} (h : isPySpace c = true) :
    (c = cDQ ∨ c = cBS ∨ c = cBT ∨ c = cDol) → False := by
  rcases pySpace_cases h with h | h | h | h | h | h <;> subst h <;> decide

/-- If a value has no special characters (claim-relevant invariant of
branches 1 and 2 of `quoted`), the double-quote mode passes it through
verbatim up to a closing quote, continuing with the rest of the word. -/
theorem unqM_dq_passthrough : ∀ v : Str, ∀ k : Str, specialFound v = false →
    unqM .indq (v ++ cDQ :: k) = (unqM .norm k).map (v ++ ·) := by
  intro v
  induction v using specialFound.induct with
  | case1 =>
    intro k _
    rw [List.nil_append, unqM_indq_close]
    cases unqM .norm k <;> simp
  | case2 c =>
    intro k h
    simp only [specialFound] at h
    simp at h
    by_cases hc : c = cDol
    · subst hc
      show unqM .indq (cDol :: cDQ :: k) = _
      rw [unqM_indq_dollar _ (by decide), unqM_indq_close]
      cases unqM .norm k <;> simp
    · show unqM .indq (c :: cDQ :: k) = _
      rw [unqM_indq_cons_normal _ h.1.1 h.1.2 h.2 hc, unqM_indq_close]
      cases unqM .norm k <;> simp
  | case3 c d rest hsp =>
    intro k h
    rw [specialFound, if_pos hsp] at h
    exact absurd h (by simp)
  | case4 c d rest hsp hdol =>
    intro k h
    rw [specialFound, if_neg hsp, if_pos hdol] at h
    exact absurd h (by simp)
  | case5 c d rest hsp hdol ih =>
    intro k h
    rw [specialFound, if_neg hsp, if_neg hdol] at h
    simp at hsp
    by_cases hc : c = cDol
    · subst hc
      simp at hdol
      rw [List.cons_append, List.cons_append,
        unqM_indq_dollar _ (pySpace_not_dqExp hdol), ← List.cons_append, ih k h]
      cases unqM .norm k <;> simp
    · rw [List.cons_append, unqM_indq_cons_normal _ hsp.1.1 hsp.1.2 hsp.2 hc, ih k h]
      cases unqM .norm k <;> simp

/-- Head shape of `listBreakSub`: the substitution only inserts characters
after a '>', so the first character is preserved. -/
theorem listBreakSub_head (e : Char) (r : Str) :
    ∃ t, (listBreakSub (e :: r)).1 = e :: t := by
  rw [listBreakSub]
  by_cases h : e = cGT && !(r = []) && !(r = [cNL])
  · simp only [h]; exact ⟨_, rfl⟩
  · simp only [h]; exact ⟨_, rfl⟩

/-- The list-broken form of a special-character-free value scans back to the
original value: the inserted backslash-newline pairs are line continuations. -/
theorem unqM_dq_listBreak : ∀ v : Str, ∀ k : Str, specialFound v = false →
    unqM .indq ((listBreakSub v).1 ++ cDQ :: k) = (unqM .norm k).map (v ++ ·) := by
  intro v
  induction v using specialFound.induct with
  | case1 =>
    intro k _
    show unqM .indq (cDQ :: k) = _
    rw [unqM_indq_close]
    cases unqM .norm k <;> simp
  | case2 c =>
    intro k h
    simp only [specialFound] at h
    simp at h
    have hlb : (listBreakSub [c]).1 = [c] := by
      rw [listBreakSub]
      simp [listBreakSub]
    rw [hlb]
    by_cases hc : c = cDol
    · subst hc
      show unqM .indq (cDol :: cDQ :: k) = _
      rw [unqM_indq_dollar _ (by decide), unqM_indq_close]
      cases unqM .norm k <;> simp
    · show unqM .indq (c :: cDQ :: k) = _
      rw [unqM_indq_cons_normal _ h.1.1 h.1.2 h.2 hc, unqM_indq_close]
      cases unqM .norm k <;> simp
  | case3 c d rest hsp =>
    intro k h
    rw [specialFound, if_pos hsp] at h
    exact absurd h (by simp)
  | case4 c d rest hsp hdol =>
    intro k h
    rw [specialFound, if_neg hsp, if_pos hdol] at h
    exact absurd h (by simp)
  | case5 c d rest hsp hdol ih =>
    intro k h
    rw [specialFound, if_neg hsp, if_neg hdol] at h
    simp at hsp
    rw [listBreakSub]
    obtain ⟨u, hu⟩ := listBreakSub_head d rest
    by_cases hgt : c = cGT && !((d :: rest) = []) && !((d :: rest) = [cNL])
    · simp only [hgt, if_true]
      simp at hgt
      have h1 : c ≠ cDQ := by rw [hgt.1]; decide
      have h2 : c ≠ cBS := by rw [hgt.1]; decide
      have h3 : c ≠ cBT := by rw [hgt.1]; decide
      have h4 : c ≠ cDol := by rw [hgt.1]; decide
      rw [List.cons_append, unqM_indq_cons_normal _ h1 h2 h3 h4,
        List.cons_append, List.cons_append, unqM_indq_bs_nl, ih k h]
      cases unqM .norm k <;> simp
    · simp only [hgt, Bool.false_eq_true, if_false]
      by_cases hc : c = cDol
      · subst hc
        simp at hdol
        rw [List.cons_append, hu, List.cons_append,
          unqM_indq_dollar _ (pySpace_not_dqExp hdol), ← List.cons_append, ← hu, ih k h]
        cases unqM .norm k <;> simp
      · rw [List.cons_append, unqM_indq_cons_normal _ hsp.1.1 hsp.1.2 hsp.2 hc, ih k h]
        cases unqM .norm k <;> simp

/-- The escaped form of any value (branch 3 of `quoted`) scans back to the
original value. -/
theorem unqM_dq_escSpecial : ∀ v : Str, ∀ k : Str,
    unqM .indq (escSpecial v ++ cDQ :: k) = (unqM .norm k).map (v ++ ·) := by
  intro v
  induction v using escSpecial.induct with
  | case1 =>
    intro k
    show unqM .indq (cDQ :: k) = _
    rw [unqM_indq_close]
    cases unqM .norm k <;> simp
  | case2 c hsp =>
    intro k
    rw [escSpecial, if_pos hsp]
    rw [List.cons_append, List.cons_append, unqM_indq_bs_esc _ (by simp at hsp; tauto),
      List.nil_append, unqM_indq_close]
    cases unqM .norm k <;> simp
  | case3 c hsp =>
    intro k
    rw [escSpecial, if_neg hsp]
    simp at hsp
    by_cases hc : c = cDol
    · subst hc
      show unqM .indq (cDol :: cDQ :: k) = _
      rw [unqM_indq_dollar _ (by decide), unqM_indq_close]
      cases unqM .norm k <;> simp
    · show unqM .indq (c :: cDQ :: k) = _
      rw [unqM_indq_cons_normal _ hsp.1.1 hsp.1.2 hsp.2 hc, unqM_indq_close]
      cases unqM .norm k <;> simp
  | case4 c d rest hsp ih =>
    intro k
    rw [escSpecial, if_pos hsp]
    rw [List.cons_append, List.cons_append, unqM_indq_bs_esc _ (by simp at hsp; tauto), ih k]
    cases unqM .norm k <;> simp
  | case5 c d rest hsp hdol ih =>
    intro k
    rw [escSpecial, if_neg hsp, if_pos hdol]
    simp at hdol
    rw [List.cons_append, List.cons_append, unqM_indq_bs_esc _ (Or.inl hdol.1), ih k]
    cases unqM .norm k <;> simp
  | case6 c d rest hsp hdol ih =>
    intro k
    rw [escSpecial, if_neg hsp, if_neg hdol]
    simp at hsp
    by_cases hc : c = cDol
    · subst hc
      simp at hdol
      have hhead : ∃ u, escSpecial (d :: rest) = d :: u := by
        have h1 : (d = cDQ || d = cBS || d = cBT) = false := by
          simp
          refine ⟨⟨fun he => pySpace_not_sp hdol (Or.inl he), fun he =>
            pySpace_not_sp hdol (Or.inr (Or.inl he))⟩, fun he =>
            pySpace_not_sp hdol (Or.inr (Or.inr (Or.inl he)))⟩
        have h2 : d ≠ cDol := fun he => pySpace_not_sp hdol (Or.inr (Or.inr (Or.inr he)))
        cases rest with
        | nil =>
          rw [escSpecial, h1]
          simp
        | cons e t =>
          rw [escSpecial, h1]
          simp only [Bool.false_eq_true, if_false]
          rw [if_neg (by simp [h2])]
          exact ⟨_, rfl⟩
      obtain ⟨u, hu⟩ := hhead
      rw [List.cons_append, hu, List.cons_append,
        unqM_indq_dollar _ (pySpace_not_dqExp hdol), ← List.cons_append, ← hu, ih k]
      cases unqM .norm k <;> simp
    · rw [List.cons_append, unqM_indq_cons_normal _ hsp.1.1 hsp.1.2 hsp.2 hc, ih k]
      cases unqM .norm k <;> simp

/-- Single-quote mode passes a quote-free value through verbatim. -/
theorem unqM_sq_passthrough : ∀ v : Str, ∀ k : Str, cSQ ∉ v →
    unqM .insq (v ++ cSQ :: k) = (unqM .norm k).map (v ++ ·) := by
  intro v
  induction v with
  | nil =>
    intro k _
    show unqM .insq (cSQ :: k) = _
    rw [unqM]
    simp only [if_pos rfl, reduceIte]
    cases unqM .norm k <;> simp
  | cons c rest ih =>
    intro k h
    simp at h
    rw [List.cons_append, unqM, if_neg (fun hc => h.1 hc.symm), ih k (fun hm => h.2 hm)]
    cases unqM .norm k <;> simp

theorem sqReplace_id : ∀ v : Str, cSQ ∉ v → sqReplace v = v := by
  intro v
  induction v with
  | nil => intro _; rfl
  | cons c rest ih =>
    intro h
    simp at h
    rw [sqReplace, if_neg (fun hc => h.1 hc.symm), ih (fun hm => h.2 hm)]

/-- Every character `shlex.quote` leaves bare is an ordinary word character
for the shell. -/
theorem shlexSafe_facts {c : Char} (h : shlexSafe c = true) :
    c ≠ cSQ ∧ c ≠ cDQ ∧ c ≠ cBS ∧ c ≠ cBT ∧ c ≠ cDol ∧ wordBreak c = false := by
  refine ⟨fun he => by subst he; revert h; decide,
    fun he => by subst he; revert h; decide,
    fun he => by subst he; revert h; decide,
    fun he => by subst he; revert h; decide,
    fun he => by subst he; revert h; decide, ?_⟩
  by_contra hw
  rw [Bool.not_eq_false, wordBreak] at hw
  simp only [Bool.or_eq_true, decide_eq_true_eq] at hw
  rcases hw with (((((((hw | hw) | hw) | hw) | hw) | hw) | hw) | hw)
  · rcases pySpace_cases hw with he | he | he | he | he | he <;> subst he <;> revert h <;> decide
  all_goals (subst hw; revert h; decide)

/-- Unquoted mode passes a word of shlex-safe characters through verbatim. -/
theorem unqM_norm_safe : ∀ v : Str, v.all shlexSafe = true → unqM .norm v = some v := by
  intro v
  induction v with
  | nil => intro _; rfl
  | cons c rest ih =>
    intro h
    simp only [List.all_cons, Bool.and_eq_true] at h
    obtain ⟨h1, h2, h3, h4, h5, h6⟩ := shlexSafe_facts h.1
    cases rest with
    | nil => simp [unqM, h1, h2, h3, h4, h5, h6]
    | cons d t =>
      rw [unqM]
      simp only [h1, h2, h3, h4, h5, h6, if_false, Bool.or_eq_true, decide_eq_true_eq,
        Bool.false_eq_true, or_self]
      rw [ih h.2]
      simp [h4, h5, h6]

theorem unqM_norm_dq (l : Str) : unqM .norm (cDQ :: l) = unqM .indq l := by
  have h : cDQ ≠ cSQ := by decide
  cases l <;> simp [unqM, h]

theorem unqM_norm_sq (l : Str) : unqM .norm (cSQ :: l) = unqM .insq l := by
  cases l <;> simp [unqM]

/-- Claim C1 (round-trip quoting): for every setting value, POSIX shell
unquoting of the quoted part rendered by `Item.quoted` into the
`nvram set name=<quoted>` line yields exactly the original value, byte for
byte — for all values, including those containing newlines, single quotes,
double quotes, backticks, backslashes, dollar signs, and the '>'
list-separator character. -/
theorem C1_round_trip_quoting (v : Str) : shellUnquote (quoted v) = some v := by
  rw [shellUnquote, quoted]
  by_cases h1 : cNL ∈ v ∧ specialFound v = false
  · rw [if_pos h1]
    rw [unqM_norm_dq, show cBS :: cNL :: (v ++ [cDQ]) = cBS :: cNL :: (v ++ cDQ :: []) from rfl,
      unqM_indq_bs_nl, unqM_dq_passthrough v [] h1.2]
    simp [unqM]
  · rw [if_neg h1]
    by_cases h2 : (listBreakSub v).2 ≠ 0 ∧ specialFound v = false
    · rw [if_pos h2, unqM_norm_dq,
        show cBS :: cNL :: ((listBreakSub v).1 ++ [cDQ]) =
          cBS :: cNL :: ((listBreakSub v).1 ++ cDQ :: []) from rfl,
        unqM_indq_bs_nl, unqM_dq_listBreak v [] h2.2]
      simp [unqM]
    · rw [if_neg h2]
      by_cases h3 : cSQ ∈ v
      · rw [if_pos h3, unqM_norm_dq,
          show escSpecial v ++ [cDQ] = escSpecial v ++ cDQ :: [] from rfl,
          unqM_dq_escSpecial v []]
        simp [unqM]
      · rw [if_neg h3]
        by_cases h4 : v = []
        · rw [if_pos h4, h4]
          rfl
        · rw [if_neg h4, shlexQuote, if_neg h4]
          by_cases h5 : v.all shlexSafe
          · rw [if_pos h5, unqM_norm_safe v h5]
          · rw [if_neg h5, sqReplace_id v h3, unqM_norm_sq,
              show v ++ [cSQ] = v ++ cSQ :: [] from rfl,
              unqM_sq_passthrough v [] h3]
            simp [unqM]

/-- Claim C10 (empty values rendered bare): for a setting whose value is the
empty string, `Item.quoted` returns the value itself unquoted, so the
rendered line is exactly `nvram set <name>=` with no quote characters —
in particular the minimal single-quoting form `''` is never produced for
an empty value. -/
theorem C10_empty_value_bare (n : Str) :
    command n [] = "nvram set ".data ++ n ++ ['='] ∧
    quoted [] = [] ∧ quoted [] ≠ [cSQ, cSQ] := by
  have hq : quoted [] = [] := by decide
  exact ⟨by rw [command, hq], hq, by rw [hq]; decide⟩

/-! ### Settings Parser (`parse_nvram_txt`, source lines 5-41)

The parser of the dump text: strip the epilogue, split the text at stanza
starts with the `nvram_txt_split` pattern, pair names with value pieces,
and drop ignored names (`keep_item`). -/

/-- Name characters, the class `[\w.:/]` of `nvram_txt_split`. -/
def nameChar (c : Char) : Bool := isWordA c || c = '.' || c = ':' || c = '/'

/-- `ignore_names.match(name)`: the pattern `http_id|os_\w+|\w+_cache`
anchored at the start of the name (a prefix match, as `re.match`). -/
def ignoreMatch (n : Str) : Bool :=
  "http_id".data.isPrefixOf n ||
  ("os_".data.isPrefixOf n &&
    (match n.drop 3 with | [] => false | c :: _ => isWordA c)) ||
  (List.range (n.length + 1)).any (fun k =>
    decide (1 ≤ k) && (n.take k).all isWordA && "_cache".data.isPrefixOf (n.drop k))

/-- Character class `[\w\s,.]` of the epilogue body. -/
def epiClass (c : Char) : Bool := isWordA c || isPySpace c || c = ',' || c = '.'

/-- `nvram_txt_epilogue.sub('', txt)`: remove every match of
`\n(---\n[\w\s,.]+)?$`.  With the optional group the match runs to the end
of the text; without it the pattern strips a trailing newline (Python's `$`
also matches just before a final newline, so two trailing newlines are
removed by two successive matches). -/
def epilogueStrip : Str → Str
  | [] => []
  | c :: rest =>
    if c = cNL && "---\n".data.isPrefixOf rest && !(rest.drop 4 = []) &&
       (rest.drop 4).all epiClass then []
    else if c = cNL && (rest = [] || rest = [cNL]) then []
    else c :: epilogueStrip rest

/-- Does the remainder start with an equals sign? -/
def startsEq : Str → Bool
  | [] => false
  | c :: _ => c = '='

/-- The `\s*\n[^\w.:/]` part of the negative lookahead: within the leading
whitespace run there is a newline whose following character is not a name
character. -/
def badNlScan : Str → Bool
  | [] => false
  | [_] => false
  | c :: d :: rest =>
    if c = cNL && !nameChar d then true
    else if isPySpace c then badNlScan (d :: rest)
    else false

/-- The negative lookahead `(?!=|\s*\n[^\w.:/])` after the equals sign:
values cannot start with an equals sign or essentially be a blank line. -/
def lookAheadOK (r : Str) : Bool := !startsEq r && !badNlScan r

/-- Try to match `(?P<name>[\w.:/]+)=(?!...)` at the start of `r`: the
maximal run of name characters, an equals sign, and the lookahead.
Returns the name and the remainder after the equals sign. -/
def stanzaHead (r : Str) : Option (Str × Str) :=
  let nm := r.takeWhile nameChar
  let r2 := r.dropWhile nameChar
  if !(nm = []) && startsEq r2 && lookAheadOK r2.tail then some (nm, r2.tail) else none

/-- One pass of `nvram_txt_split.split` from a position after the start:
a stanza can begin only after a newline.  Returns the piece up to the next
match together with the (name, following piece) list.  A match consumes
the newline, the name and the equals sign; since names and `=` contain no
newline, no further match can begin inside that consumed region, so the
recursion may scan it as piece text and strip it afterwards. -/
def splitGo : Str → Str × List (Str × Str)
  | [] => ([], [])
  | c :: rest =>
    let p := splitGo rest
    if c = cNL then
      match stanzaHead rest with
      | some (nm, _) => ([], (nm, p.1.drop (nm.length + 1)) :: p.2)
      | none => (cNL :: p.1, p.2)
    else (c :: p.1, p.2)

/-- `nvram_txt_split.split(txt)` with the leading piece separated: the
alternation `(?:\n|^)` also allows a match at position zero without a
newline. -/
def parseSplit (s : Str) : Str × List (Str × Str) :=
  let p := splitGo s
  match stanzaHead s with
  | some (nm, _) => ([], (nm, p.1.drop (nm.length + 1)) :: p.2)
  | none => p

/-- `parse_nvram_txt(nvram_txt)`: strip the epilogue, split into
name/value pairs (the source drops the leading piece and zips the rest),
and filter with `keep_item`. -/
def parseNvramTxt (txt : Str) : List (Str × Str) :=
  ((parseSplit (epilogueStrip txt)).2).filter (fun nv => !ignoreMatch nv.1)

/-! ### Differ (`diff_files`, source lines 43-57) and `main` (375-407)

File access is abstracted to the file contents; a missing file
(`FileNotFoundError`) is an absent content.  Python `set` iteration order
is unspecified; the model enumerates a set in first-occurrence order, and
the theorems below do not depend on that choice. -/

/-- `set(l)` as a list in first-occurrence order. -/
def pySet : List (Str × Str) → List (Str × Str)
  | [] => []
  | p :: rest => p :: (pySet rest).filter (fun q => !(q = p))

/-- `dict(l)`: later entries overwrite earlier ones in place. -/
def pyDict (l : List (Str × Str)) : List (Str × Str) :=
  l.foldl (fun acc p =>
    if acc.any (fun q => q.1 = p.1) then
      acc.map (fun q => if q.1 = p.1 then (q.1, p.2) else q)
    else acc ++ [p]) []

/-- `diff_files(input_name, base_name)`: parse both files and return
`dict(set(input).difference(base))`, or `dict(input)` when no base name is
given. -/
def diff_files (inputTxt : Str) (baseTxt : Option Str) : List (Str × Str) :=
  match baseTxt with
  | some b =>
    pyDict ((pySet (parseNvramTxt inputTxt)).filter
      (fun p => !(parseNvramTxt b).contains p))
  | none => pyDict (parseNvramTxt inputTxt)

/-- The observable outcome of `main`: an output script written with a
settings count reported, the distinct "No differences found." report with
no file written, or the `FileNotFoundError` path (error printed, help
shown, no file written). -/
inductive MainOutcome where
  | written (settingCount : Nat)
  | noDifferences
  | fileError
deriving DecidableEq, Repr

/-- `main` (source lines 383-407) on the contents of the input and base
files (`none` = missing file; `args.base` always carries a name, so the
baseline is always diffed). -/
def mainModel (inputTxt : Option Str) (baseTxt : Option Str) : MainOutcome :=
  match inputTxt, baseTxt with
  | some itxt, some btxt =>
    let diff := diff_files itxt (some btxt)
    if diff = [] then .noDifferences else .written diff.length
  | _, _ => .fileError

/-! ### Claims C7 and C9 -/

theorem pySet_mem {q : Str × Str} : ∀ {l : List (Str × Str)}, q ∈ pySet l ↔ q ∈ l := by
  intro l
  induction l with
  | nil => simp [pySet]
  | cons p rest ih =>
    rw [pySet]
    constructor
    · intro h
      rcases List.mem_cons.mp h with h | h
      · simp [h]
      · exact List.mem_cons_of_mem _ (ih.mp (List.mem_filter.mp h).1)
    · intro h
      rcases List.mem_cons.mp h with h | h
      · simp [h]
      · by_cases hq : q = p
        · simp [hq]
        · exact List.mem_cons_of_mem _ (List.mem_filter.mpr ⟨ih.mpr h, by simp [hq]⟩)

theorem pyDict_go : ∀ (l acc : List (Str × Str)),
    (((acc ++ l).map Prod.fst).Nodup) →
    l.foldl (fun acc p =>
      if acc.any (fun q => q.1 = p.1) then
        acc.map (fun q => if q.1 = p.1 then (q.1, p.2) else q)
      else acc ++ [p]) acc = acc ++ l := by
  intro l
  induction l with
  | nil => intro acc _; simp
  | cons p t ih =>
    intro acc h
    have hmem : p.1 ∉ acc.map Prod.fst := by
      intro hin
      rw [show acc ++ p :: t = (acc ++ [p]) ++ t by simp] at h
      have := (List.nodup_append.mp ((List.map_append _ _ _) ▸ h)).1
      rw [List.map_append] at this
      have h2 := List.nodup_append.mp this
      exact h2.2.2 hin (by simp)
    have hany : acc.any (fun q => q.1 = p.1) = false := by
      simp only [List.any_eq_false, decide_eq_true_eq]
      intro q hq he
      exact hmem (he ▸ List.mem_map_of_mem Prod.fst hq)
    rw [List.foldl_cons]
    simp only [hany, Bool.false_eq_true, if_false]
    rw [ih (acc ++ [p]) (by simpa using h)]
    simp

/-- `dict(l)` is the identity on association lists with distinct names. -/
theorem pyDict_eq_self (l : List (Str × Str)) (h : (l.map Prod.fst).Nodup) :
    pyDict l = l := by
  have := pyDict_go l [] (by simpa using h)
  simpa [pyDict] using this

/-- Claim C7, amended: `diff_files` returns exactly the (name, value) pairs
present in the parse of the input and absent from the parse of the base
(pure set difference, independent of order), and with no base name it
returns the parsed input unchanged — provided no setting name survives
with two different values (otherwise Python's `dict(...)` conversion
collapses duplicate names, keeping only one value). -/
theorem C7_diff_set_difference (A B : Str)
    (hD : (((pySet (parseNvramTxt A)).filter
      (fun p => !(parseNvramTxt B).contains p)).map Prod.fst).Nodup)
    (hA : ((parseNvramTxt A).map Prod.fst).Nodup) :
    (∀ p, p ∈ diff_files A (some B) ↔ p ∈ parseNvramTxt A ∧ p ∉ parseNvramTxt B) ∧
    diff_files A none = parseNvramTxt A := by
  constructor
  · intro p
    rw [diff_files, pyDict_eq_self _ hD, List.mem_filter, pySet_mem]
    simp
  · rw [diff_files, pyDict_eq_self _ hA]

/-- Witness for `C7_diff_set_difference` at concrete dump texts. -/
theorem C7_diff_set_difference_witness :
    ((((pySet (parseNvramTxt "a=1\nb=2".data)).filter
      (fun p => !(parseNvramTxt "b=2".data).contains p)).map Prod.fst).Nodup) ∧
    (((parseNvramTxt "a=1\nb=2".data).map Prod.fst).Nodup) ∧
    ((∀ p, p ∈ diff_files "a=1\nb=2".data (some "b=2".data) ↔
        p ∈ parseNvramTxt "a=1\nb=2".data ∧ p ∉ parseNvramTxt "b=2".data) ∧
      diff_files "a=1\nb=2".data none = parseNvramTxt "a=1\nb=2".data) :=
  ⟨by decide, by decide,
    C7_diff_set_difference "a=1\nb=2".data "b=2".data (by decide) (by decide)⟩

/-- Counterexample to claim C7 as stated: on the dump `a=1` newline `a=2`
with no baseline, the parse holds both pairs but `diff_files` (through
`dict(...)`) returns a mapping in which the pair (a, 1) no longer occurs —
the result is not "all of the parsed input unchanged". -/
theorem C7_counterexample :
    ("a".data, "1".data) ∈ parseNvramTxt "a=1\na=2".data ∧
    ("a".data, "1".data) ∉ diff_files "a=1\na=2".data none := by
  decide

/-- Claim C9: whenever the computed diff is empty, `main` takes the
no-differences branch: no output file is opened or written and the distinct
non-error "No differences found." outcome is reported (distinct by
constructor from both the written and the error outcomes). -/
theorem C9_empty_diff_reports (itxt btxt : Str)
    (h : diff_files itxt (some btxt) = []) :
    mainModel (some itxt) (some btxt) = MainOutcome.noDifferences := by
  simp [mainModel, h]

/-- Witness for `C9_empty_diff_reports`: identical input and baseline. -/
theorem C9_empty_diff_reports_witness :
    diff_files "a=1".data (some "a=1".data) = [] ∧
    mainModel (some "a=1".data) (some "a=1".data) = MainOutcome.noDifferences :=
  ⟨by decide, C9_empty_diff_reports "a=1".data "a=1".data (by decide)⟩

/-! ### Item (source lines 176-221)

An `Item` holds a name and value; the derived attributes (prefix, command,
newline count, sort key, width, large flag) are modelled as functions. -/

structure PItem where
  name : Str
  value : Str
deriving DecidableEq, Repr

/-- `re.split(r'_|:', name)`: split at every underscore or colon, keeping
empty pieces. -/
def splitNB : Str → List Str
  | [] => [[]]
  | c :: rest =>
    match splitNB rest with
    | [] => [[c]]
    | p :: ps => if c = cUnd || c = ':' then [] :: p :: ps else (c :: p) :: ps

/-- `Item.prefix`: the first piece of the split name, or the leading
lowercase run (`re.match('[a-z]*', name)`) when nothing was split off. -/
def itemPfx (n : Str) : Str :=
  let parts := splitNB n
  if 1 < parts.length then parts.headD [] else n.takeWhile isLowerA

/-- Python `str.capitalize` (ASCII): first character upper, rest lower. -/
def pyCapitalize : Str → Str
  | [] => []
  | c :: rest => c.toUpper :: rest.map Char.toLower

/-- `Item.groupname`: short prefixes become acronym-style upper case,
longer ones are capitalized. -/
def itemGroupname (n : Str) : Str :=
  let p := itemPfx n
  if p.length ≤ 4 then p.map Char.toUpper else pyCapitalize p

/-- `Item.newlines`: newline count of the rendered command. -/
def newlinesOf (n v : Str) : Nat := (command n v).count cNL

/-- `name.lower().replace('_', ' ')`, the textual part of `Item.sort_key`. -/
def normName (n : Str) : Str :=
  (n.map Char.toLower).map (fun c => if c = cUnd then ' ' else c)

/-- `Item.sort_key = (newlines, name.lower().replace('_', ' '))`. -/
def itemSortKey (it : PItem) : Nat × Str := (newlinesOf it.name it.value, normName it.name)

/-- `Item.width`: command length for single-line items, zero otherwise. -/
def widthOf (n v : Str) : Nat := if newlinesOf n v = 0 then (command n v).length else 0

/-- `Item.large`: more than 24 newlines or wider than 128 columns. -/
def largeOf (it : PItem) : Bool :=
  decide (24 < newlinesOf it.name it.value) || decide (128 < widthOf it.name it.value)

/-! ### Config (source lines 351-373) and Groups (91-136)

The category rule table is external data (config.ini); it is modelled as
the ordered list of section names together with the compiled alternation
`matches`, which returns the index of the first matching rule for a name,
if any.  `rank` maps a known name to its rule position, unknown names to
the fallback rank `len(names)`, and 'Other' to `len(rank) + 1`. -/

structure Cfg where
  names : List Str
  ruleMatch : Str → Option Nat

def otherKey : Str := "Other".data

/-- `Config.rank[k]` as observed: position of a known rule name, the
default `len(names)` for unknown keys, and `len(rank) + 1` for 'Other'
(`List.indexOf` returns `length` for absent keys, exactly the default). -/
def cfgRank (cfg : Cfg) (k : Str) : Nat :=
  if k = otherKey then cfg.names.length + 1 else cfg.names.indexOf k

/-- `Config.groupname(item)`: the first matching rule's name, else the
item's own fallback group name. -/
def cfgGroupname (cfg : Cfg) (n : Str) : Str :=
  match cfg.ruleMatch n with
  | some i => cfg.names.getD i (itemGroupname n)
  | none => itemGroupname n

/-- One group: name, rank, member items, and optional loop decorations. -/
structure PGroup where
  gname : Str
  grank : Nat
  items : List PItem
  gpfx : Option Str := none
  gsfx : Option Str := none
deriving DecidableEq, Repr

/-- Update the (unique) dictionary entry with the given key in place. -/
def updateFirst (k : Str) (f : PGroup → PGroup) : List PGroup → List PGroup
  | [] => []
  | g :: gs => if g.gname = k then f g :: gs else g :: updateFirst k f gs

/-- `del groups[k]`: drop the entry with the given key. -/
def eraseByName (k : Str) : List PGroup → List PGroup
  | [] => []
  | g :: gs => if g.gname = k then gs else g :: eraseByName k gs

/-- `Groups.__init__` body for one item: append it to its group, creating
the group at the end of the (insertion-ordered) dictionary if missing. -/
def addToGroupsGo (k : Str) (r : Nat) (it : PItem) : List PGroup → List PGroup
  | [] => [{ gname := k, grank := r, items := [it] }]
  | g :: gs =>
    if g.gname = k then { g with items := g.items ++ [it] } :: gs
    else g :: addToGroupsGo k r it gs

def addToGroups (cfg : Cfg) (gs : List PGroup) (it : PItem) : List PGroup :=
  let k := cfgGroupname cfg it.name
  addToGroupsGo k (cfgRank cfg k) it gs

/-- `Groups(items, config)`: classify every item. -/
def buildGroups (cfg : Cfg) (its : List PItem) : List PGroup :=
  its.foldl (addToGroups cfg) []

/-- `Config.collapsible(group)`: rank equals the fallback rank. -/
def collapsible (cfg : Cfg) (g : PGroup) : Bool := g.grank = cfg.names.length

/-- The set of keys `Groups.collapse` collapses (computed before the loop).
The source iterates a set comprehension whose order is unspecified; the
model keeps the groups' insertion order. -/
def collapseKeys (cfg : Cfg) (gs : List PGroup) : List Str :=
  (gs.filter (fun g => collapsible cfg g && decide (g.items.length < 3) &&
    !(g.gname = otherKey))).map (fun g => g.gname)

/-- A fresh empty 'Other' group, as `Groups.__missing__` creates it. -/
def emptyOther (cfg : Cfg) : PGroup :=
  { gname := otherKey, grank := cfgRank cfg otherKey, items := [] }

/-- One `collapse` loop iteration: `self['Other'].extend(self[key])` (the
'Other' group is created at the end on first use) then `del self[key]`. -/
def collapseStep (cfg : Cfg) (gs : List PGroup) (k : Str) : List PGroup :=
  match gs.find? (fun g => g.gname = k) with
  | none => gs
  | some g =>
    let gs1 := if gs.any (fun h => h.gname = otherKey) then gs else gs ++ [emptyOther cfg]
    eraseByName k (updateFirst otherKey (fun h => { h with items := h.items ++ g.items }) gs1)

/-- `Groups.collapse()` with the default minimum size 3 and target 'Other'. -/
def collapseG (cfg : Cfg) (gs : List PGroup) : List PGroup :=
  (collapseKeys cfg gs).foldl (collapseStep cfg) gs

/-! ### The Deduper (source lines 245-312) -/

/-- First alternative of `Deduper.prefix_pattern`, `[a-z]+_[a-z]+\d+`
anchored at the start: maximal lowercase run, underscore, maximal
lowercase run, maximal digit run (each nonempty); backtracking cannot
produce anything else because shorter runs end at the wrong character. -/
def prefixEndA1 (n : Str) : Option Nat :=
  let l1 := n.takeWhile isLowerA
  let r1 := n.dropWhile isLowerA
  if l1 = [] then none
  else
    match r1 with
    | [] => none
    | c :: r2 =>
      if c = cUnd then
        let l2 := r2.takeWhile isLowerA
        let r3 := r2.dropWhile isLowerA
        let d := r3.takeWhile isDigitA
        if !(l2 = []) && !(d = []) then some (l1.length + 1 + l2.length + d.length)
        else none
      else none

/-- Second alternative, `[a-z]+\d*(?=_)`: maximal lowercase run, maximal
digit run, and an underscore must follow. -/
def prefixEndA2 (n : Str) : Option Nat :=
  let l := n.takeWhile isLowerA
  let r := n.dropWhile isLowerA
  let d := r.takeWhile isDigitA
  let r2 := r.dropWhile isDigitA
  if !(l = []) && (match r2 with | [] => false | c :: _ => c = cUnd) then
    some (l.length + d.length)
  else none

/-- `Deduper.prefix_pattern.match(name)`: end position of the match, the
first alternative tried first. -/
def prefixMatchEnd (n : Str) : Option Nat :=
  (prefixEndA1 n).orElse (fun _ => prefixEndA2 n)

/-- A residual key: the name remainder after the matched prefix, and the
value. -/
abbrev PKey := Str × Str

/-- One entry produced by `Groups.scan(prefix_pattern)` as consumed by
`Deduper.__init__`: the matched prefix, the residual key, and the name of
the group the item lives in. -/
structure ScanE where
  pfx : Str
  key : PKey
  gname : Str
deriving DecidableEq, Repr

/-- `Groups.scan`: every item of every group whose name matches, in
iteration order. -/
def scanEntriesOf (gs : List PGroup) : List ScanE :=
  gs.flatMap (fun g => g.items.filterMap (fun it =>
    match prefixMatchEnd it.name with
    | some e => some ⟨it.name.take e, (it.name.drop e, it.value), g.gname⟩
    | none => none))

/-- Add a key to `prefix_to_keys[p]` (a set: no duplicates; the dictionary
keeps insertion order of the prefixes). -/
def addKey : List (Str × List PKey) → Str → PKey → List (Str × List PKey)
  | [], p, k => [(p, [k])]
  | e :: m, p, k =>
    if e.1 = p then (e.1, if k ∈ e.2 then e.2 else e.2 ++ [k]) :: m
    else e :: addKey m p k

/-- `Deduper.prefix_to_keys` built from the scan. -/
def initP2k (es : List ScanE) : List (Str × List PKey) :=
  es.foldl (fun m e => addKey m e.pfx e.key) []

def lookupKeys (m : List (Str × List PKey)) (p : Str) : List PKey :=
  match m.find? (fun e => e.1 = p) with
  | some e => e.2
  | none => []

/-- `Deduper.group_names[(p, key)]`; a (prefix, key) pair determines the
scanned item, so the first entry is the only one. -/
def gnOf (es : List ScanE) (p : Str) (k : PKey) : Str :=
  match es.find? (fun e => e.pfx = p && e.key = k) with
  | some e => e.gname
  | none => []

/-- `Deduper.commonkeys(prefixes)`: intersection of the key sets. -/
def commonKeys (m : List (Str × List PKey)) (ps : List Str) : List PKey :=
  match ps with
  | [] => []
  | p :: rest =>
    (lookupKeys m p).filter (fun k => rest.all (fun q => (lookupKeys m q).contains k))

/-- `Deduper.lines_saved(prefixes, keys)`: `(P - 1) * K - 5` when positive
and more than one prefix is involved, else zero.  A passed-in empty key
set falls back to `commonkeys` (`keys or self.commonkeys(...)`). -/
def linesSaved (m : List (Str × List PKey)) (ps : List Str) (ks : Option (List PKey)) : Int :=
  if 1 < ps.length then
    let keys := match ks with
      | some l => if l = [] then commonKeys m ps else l
      | none => commonKeys m ps
    let saved : Int := ((ps.length : Int) - 1) * keys.length - 5
    if 0 < saved then saved else 0
  else 0

/-- Python string comparison (code point lexicographic). -/
def strLtB : Str → Str → Bool
  | [], [] => false
  | [], _ :: _ => true
  | _ :: _, [] => false
  | a :: as, b :: bs => if a < b then true else if b < a then false else strLtB as bs

/-- Stable insertion into a sorted prefix: `x` goes after every element it
is not strictly before. -/
def insSorted (lt : α → α → Bool) : List α → α → List α
  | [], x => [x]
  | y :: ys, x => if lt x y then x :: y :: ys else y :: insSorted lt ys x

/-- Stable sort by a strict comparison, as Python `sorted`. -/
def stableSortBy (lt : α → α → Bool) (l : List α) : List α := l.foldl (insSorted lt) []

/-- `itertools.groupby(sorted_prefixes, key=item[0:2])`: consecutive runs
with the same first two characters (grouped from the right; equal keys are
transitive, so this is the usual run decomposition). -/
def chunkBy2 : List Str → List (List Str)
  | [] => []
  | x :: xs =>
    match chunkBy2 xs with
    | [] => [[x]]
    | c :: cs =>
      if (match c with | [] => false | y :: _ => y.take 2 = x.take 2) then
        (x :: c) :: cs
      else [x] :: c :: cs

/-- `itertools.combinations(s, r)` in enumeration order. -/
def combs : Nat → List α → List (List α)
  | 0, _ => [[]]
  | _ + 1, [] => []
  | r + 1, x :: xs => (combs r xs).map (x :: ·) ++ combs (r + 1) xs

/-- `Deduper.powerset(bucket, 2)`: combinations of size 2 up to the full
bucket, smaller sizes first. -/
def powersetFrom2 (l : List Str) : List (List Str) :=
  (List.range' 2 (l.length - 1)).flatMap (fun r => combs r l)

/-- `Deduper.prefix_groups()`: sort the prefixes, bucket them by their
first two characters, enumerate each bucket's subsets of size at least
two, and keep the ones with positive savings. -/
def candsOf (m : List (Str × List PKey)) : List (List Str) :=
  let sp := stableSortBy strLtB (m.map (fun e => e.1))
  ((chunkBy2 sp).flatMap powersetFrom2).filter (fun ps => 0 < linesSaved m ps none)

/-- The candidate order of `Deduper.to_factor`: descending by the savings
computed on the initial key sets (the `sorted(...)` is evaluated before any
removal), stable. -/
def sortedCandsOf (m : List (Str × List PKey)) : List (List Str) :=
  stableSortBy (fun a b => linesSaved m b none < linesSaved m a none) (candsOf m)

/-- Longest common prefix of two strings. -/
def lcp2 : Str → Str → Str
  | a :: as, b :: bs => if a = b then a :: lcp2 as bs else []
  | _, _ => []

/-- `os.path.commonprefix` (equals the fold of pairwise longest common
prefixes). -/
def commonPfx : List Str → Str
  | [] => []
  | [x] => x
  | x :: y :: rest => lcp2 x (commonPfx (y :: rest))

/-- `string.punctuation + string.whitespace` membership. -/
def isStripC (c : Char) : Bool :=
  (decide (33 ≤ c.toNat) && decide (c.toNat ≤ 47)) ||
  (decide (58 ≤ c.toNat) && decide (c.toNat ≤ 64)) ||
  (decide (91 ≤ c.toNat) && decide (c.toNat ≤ 96)) ||
  (decide (123 ≤ c.toNat) && decide (c.toNat ≤ 126)) || isPySpace c

/-- `str.strip(string.punctuation + string.whitespace)`. -/
def stripPS (s : Str) : Str :=
  ((s.dropWhile isStripC).reverse.dropWhile isStripC).reverse

/-- The source's `commonprefix(names)` helper (source lines 314-317). -/
def commonPfxStrip (names : List Str) : Str := stripPS (commonPfx names)

/-- The record of one materialized factored group: name, rank, the chosen
concrete prefixes, the common residual keys, and the items actually
removed from the original groups. -/
structure FactRec where
  fname : Str
  frank : Nat
  fpres : List Str
  fkeys : List PKey
  removed : List PItem
deriving DecidableEq, Repr

/-- Deduper state during `dedup`: the original groups, the shrinking
`prefix_to_keys`, the immutable scan data (for `group_names` and the
cleanup closures), and the factored groups materialized so far. -/
structure DState where
  origs : List PGroup
  p2k : List (Str × List PKey)
  scanE : List ScanE
  facts : List FactRec
deriving Repr

/-- `Deduper.remove_item(item, group, groups)` through the cleanup closure
for one (prefix, key) pair: erase the item from the group it was scanned
in, deleting the group if it empties.  (A missing item would raise
`ValueError` in the source; the invariants below show the item is always
present.) -/
def removeOne (gs : List PGroup) (gn : Str) (it : PItem) : List PGroup × List PItem :=
  match gs.find? (fun g => g.gname = gn) with
  | none => (gs, [])
  | some g =>
    if it ∈ g.items then
      (let gs1 := updateFirst gn (fun h => { h with items := h.items.erase it }) gs
       if g.items.erase it = [] then eraseByName gn gs1 else gs1, [it])
    else (gs, [])

/-- The (prefix, key) pairs removed by one factoring step, prefix-major. -/
def removedPairs (ps : List Str) (ks : List PKey) : List (Str × PKey) :=
  ps.flatMap (fun p => ks.map (fun k => (p, k)))

/-- `Deduper.remove(prefixes, keys)` acting on the groups: run every
cleanup closure; also collect the items that were removed. -/
def removeAll (es : List ScanE) (gs : List PGroup) (ps : List Str) (ks : List PKey) :
    List PGroup × List PItem :=
  (removedPairs ps ks).foldl (fun acc pk =>
    let r := removeOne acc.1 (gnOf es pk.1 pk.2) ⟨pk.1 ++ pk.2.1, pk.2.2⟩
    (r.1, acc.2 ++ r.2)) (gs, [])

/-- One iteration of `Deduper.dedup`'s loop body for a candidate prefix
subset: recompute the common keys against the current `prefix_to_keys`,
apply the `to_factor` guard (`len(keys) >= minsize` and positive savings),
and on success materialize the loop group and remove the absorbed items
from the original groups and from `prefix_to_keys`. -/
def dstep (cfg : Cfg) (minsize : Nat) (st : DState) (ps : List Str) : DState :=
  let ks := commonKeys st.p2k ps
  if minsize ≤ ks.length ∧ 0 < linesSaved st.p2k ps (some ks) then
    let gname := commonPfxStrip (ps.flatMap (fun p => ks.map (fun k => gnOf st.scanE p k)))
    let rem := removeAll st.scanE st.origs ps ks
    { origs := rem.1,
      p2k := st.p2k.map (fun e =>
        if e.1 ∈ ps then (e.1, e.2.filter (fun k => !(ks.contains k))) else e),
      scanE := st.scanE,
      facts := st.facts ++ [⟨gname, cfgRank cfg gname, ps, ks, rem.2⟩] }
  else st

/-- `Deduper.__init__(groups, config)`. -/
def initDState (gs : List PGroup) : DState :=
  let es := scanEntriesOf gs
  ⟨gs, initP2k es, es, []⟩

def dedupGo (cfg : Cfg) (minsize : Nat) (st0 : DState) (cands : List (List Str)) : DState :=
  cands.foldl (dstep cfg minsize) st0

/-- `Groups.dedup(minsize)`: build the Deduper and fold its single pass
over the pre-sorted candidate list. -/
def dedupRun (cfg : Cfg) (minsize : Nat) (gs : List PGroup) : DState :=
  let st0 := initDState gs
  dedupGo cfg minsize st0 (sortedCandsOf st0.p2k)

/-- `Group.loop`'s loop variable: the stripped common prefix of the
concrete prefixes. -/
def loopTok (ps : List Str) : Str := commonPfxStrip ps

/-- The synthetic item name `'${token}suffix'`. -/
def synthName (t sfx : Str) : Str := cDol :: cLBr :: (t ++ cRBr :: sfx)

def joinSp (l : List Str) : Str := List.intercalate " ".data l

/-- `Group.loop(name, rank, prefixes, keys)` (source lines 166-173). -/
def loopGroup (e : FactRec) : PGroup :=
  let t := loopTok e.fpres
  { gname := e.fname, grank := e.frank,
    items := e.fkeys.map (fun k => ⟨synthName t k.1, k.2⟩),
    gpfx := some ("for ".data ++ t ++ " in ".data ++
      joinSp (stableSortBy strLtB e.fpres) ++ cNL :: "do".data),
    gsfx := some "done".data }

/-- The groups as they stand for rendering: originals (insertion order,
minus deletions) then the factored groups appended by `dedup`. -/
def finalGroups (st : DState) : List PGroup := st.origs ++ st.facts.map loopGroup

/-- `HttpsCrtFile.extract` pops this reserved entry from the mapping
before grouping. -/
def crtName : Str := "https_crt_file".data

def mkItems (items : List (Str × Str)) : List PItem :=
  (items.filter (fun p => !(p.1 = crtName))).map (fun p => ⟨p.1, p.2⟩)

/-- The `write_script` pipeline on a diff mapping, up to the final group
state: extract the certificate entry, group, collapse, dedup.
(`write_script` calls `dedup` with its default minimum size 3; the
parameter is kept for the claims that fix a different size.) -/
def pipeline (cfg : Cfg) (minsize : Nat) (items : List (Str × Str)) : DState :=
  dedupRun cfg minsize (collapseG cfg (buildGroups cfg (mkItems items)))

/-! ### Rendering (`Groups.formatted`, `Group.formatted`, source 124-164) -/

/-- `Item.formatted` (no comments are ever set): the command plus a
newline. -/
def fmtItem (it : PItem) : Str := command it.name it.value ++ [cNL]

/-- `Item.__lt__` via `sort_key` tuples. -/
def itemLt (a b : PItem) : Bool :=
  let ka := itemSortKey a
  let kb := itemSortKey b
  if ka.1 < kb.1 then true else if kb.1 < ka.1 then false else strLtB ka.2 kb.2

def sortItems (l : List PItem) : List PItem := stableSortBy itemLt l

/-- `Group.large`. -/
def groupLarge (g : PGroup) : Bool := g.items.any largeOf

/-- `Group.formatted()`: header, loop prefix, the single-line items (each
ending in a newline), the multi-line items joined by blank lines, loop
suffix. -/
def fmtGroup (g : PGroup) : Str :=
  let its := sortItems g.items
  let single := (its.filter (fun it => newlinesOf it.name it.value = 0)).map fmtItem
  let multi := (its.filter (fun it => !(newlinesOf it.name it.value = 0))).map fmtItem
  let pfxs := (g.gpfx.map (fun p => p ++ [cNL])).getD []
  let sfxs := (g.gsfx.map (fun p => p ++ [cNL])).getD []
  "# ".data ++ g.gname ++ cNL :: (pfxs ++ single.flatten ++ List.intercalate [cNL] multi ++ sfxs)

/-- `Group.sort_key = (large, rank, name)` as a strict comparison
(False sorts before True). -/
def groupKeyLt (a b : PGroup) : Bool :=
  (!groupLarge a && groupLarge b) ||
  ((groupLarge a = groupLarge b) &&
    (decide (a.grank < b.grank) ||
      (decide (a.grank = b.grank) && strLtB a.gname b.gname)))

def sortGroups (gs : List PGroup) : List PGroup := stableSortBy groupKeyLt gs

/-- `Groups.formatted()`: the groups sorted by `sort_key`, each formatted,
joined by blank lines. -/
def groupsFormatted (st : DState) : Str :=
  List.intercalate [cNL] ((sortGroups (finalGroups st)).map fmtGroup)

/-! ### Per-step properties of the Deduper fold (claims C4, C5, C6) -/

/-- The savings value of a factored record: `(P - 1) * K - 5`. -/
def savings (e : FactRec) : Int :=
  ((e.fpres.length : Int) - 1) * e.fkeys.length - 5

/-- The token pattern a factored item name starts with. -/
def tokPat (t : Str) : Str := cDol :: cLBr :: (t ++ [cRBr])

theorem synthName_eq (t s : Str) : synthName t s = tokPat t ++ s := by
  simp [synthName, tokPat]

/-- The claim-side loop expansion of one synthetic name: substitute a
concrete prefix for the `${token}` reference. -/
def substTok (t p n : Str) : Str :=
  if (tokPat t).isPrefixOf n then p ++ n.drop (tokPat t).length else n

/-- The claim-side expansion of a factored record over its concrete
prefixes. -/
def expandF (e : FactRec) : List PItem :=
  e.fpres.flatMap (fun p => e.fkeys.map (fun k => ⟨p ++ k.1, k.2⟩))

theorem substTok_synth (t p s : Str) : substTok t p (synthName t s) = p ++ s := by
  rw [substTok, synthName_eq, if_pos (by simp [List.isPrefixOf_iff_prefix])]
  simp

/-- Expanding the factored loop group by substituting each prefix for the
token in each synthetic item is the direct expansion. -/
theorem expand_via_subst (e : FactRec) :
    e.fpres.flatMap (fun p => (loopGroup e).items.map
      (fun it => (⟨substTok (loopTok e.fpres) p it.name, it.value⟩ : PItem))) = expandF e := by
  rw [expandF, loopGroup]
  simp only [List.map_map]
  congr 1
  funext p
  congr 1
  funext k
  simp [Function.comp, substTok_synth]

theorem dstep_scanE (cfg : Cfg) (ms : Nat) (st : DState) (ps : List Str) :
    (dstep cfg ms st ps).scanE = st.scanE := by
  rw [dstep]
  split <;> rfl

theorem dedupGo_scanE (cfg : Cfg) (ms : Nat) (cands : List (List Str)) (st : DState) :
    (dedupGo cfg ms st cands).scanE = st.scanE := by
  induction cands generalizing st with
  | nil => rfl
  | cons c cs ih => rw [dedupGo, List.foldl_cons, ← dedupGo, ih, dstep_scanE]

/-- `linesSaved` applied to exactly the common keys is positive only when
the raw savings value is positive (the `keys or commonkeys` fallback
recomputes the same set). -/
theorem linesSaved_pos {m : List (Str × List PKey)} {ps : List Str}
    (h : 0 < linesSaved m ps (some (commonKeys m ps))) :
    0 < ((ps.length : Int) - 1) * (commonKeys m ps).length - 5 := by
  rw [linesSaved] at h
  by_cases hl : 1 < ps.length
  · rw [if_pos hl] at h
    by_cases he : commonKeys m ps = []
    · simp only [he, if_pos, reduceIte] at h
      simpa [he] using h
    · simp only [he, Bool.false_eq_true, if_false, reduceIte] at h
      by_cases hs : 0 < ((ps.length : Int) - 1) * (commonKeys m ps).length - 5
      · exact hs
      · rw [if_neg hs] at h
        exact absurd h (by simp)
  · rw [if_neg hl] at h
    exact absurd h (by simp)

/-- What one `dstep` adds to the factored-group log: either nothing, or a
record built from the guard-passing candidate. -/
theorem dstep_facts (cfg : Cfg) (ms : Nat) (st : DState) (ps : List Str) {e : FactRec}
    (h : e ∈ (dstep cfg ms st ps).facts) :
    e ∈ st.facts ∨
      (ms ≤ e.fkeys.length ∧ 0 < savings e ∧
        e.fkeys = commonKeys st.p2k ps ∧ e.fpres = ps ∧
        e.frank = cfgRank cfg e.fname ∧
        e.fname = commonPfxStrip (e.fpres.flatMap
          (fun p => e.fkeys.map (fun k => gnOf st.scanE p k)))) := by
  rw [dstep] at h
  split at h
  · next hg =>
    rw [List.mem_append] at h
    rcases h with h | h
    · exact Or.inl h
    · right
      simp only [List.mem_singleton] at h
      subst h
      refine ⟨hg.1, ?_, rfl, rfl, rfl, rfl⟩
      have := linesSaved_pos hg.2
      simpa [savings] using this
  · exact Or.inl h

theorem dedupGo_facts (cfg : Cfg) (ms : Nat) (cands : List (List Str)) (st : DState)
    {e : FactRec} (h : e ∈ (dedupGo cfg ms st cands).facts) :
    e ∈ st.facts ∨
      (ms ≤ e.fkeys.length ∧ 0 < savings e ∧
        e.frank = cfgRank cfg e.fname ∧
        e.fname = commonPfxStrip (e.fpres.flatMap
          (fun p => e.fkeys.map (fun k => gnOf st.scanE p k)))) := by
  induction cands generalizing st with
  | nil => exact Or.inl h
  | cons c cs ih =>
    rw [dedupGo, List.foldl_cons, ← dedupGo] at h
    rcases ih (dstep cfg ms st c) h with h2 | h2
    · rcases dstep_facts cfg ms st c h2 with h3 | h3
      · exact Or.inl h3
      · exact Or.inr ⟨h3.1, h3.2.1, h3.2.2.2.2.1, by
          rw [h3.2.2.2.2.2]⟩
    · rw [dstep_scanE] at h2
      exact Or.inr h2

/-- Claim C4: the Deduper only materializes a factored group when the
candidate's key count meets the minimum threshold and the computed savings
value `(P - 1) * K - 5` is strictly positive. -/
theorem C4_factoring_benefit (cfg : Cfg) (ms : Nat) (items : List (Str × Str))
    {e : FactRec} (h : e ∈ (pipeline cfg ms items).facts) :
    ms ≤ e.fkeys.length ∧ 0 < savings e := by
  rw [pipeline, dedupRun] at h
  rcases dedupGo_facts _ _ _ _ h with h2 | h2
  · exact absurd h2 (by simp [initDState])
  · exact ⟨h2.1, h2.2.1⟩

/-- Claim C6, amended: the rank of every factored group is the
configured rank of the stripped longest common prefix of the names of the
groups the absorbed settings came from (not the minimum source rank). -/
theorem C6_factored_rank (cfg : Cfg) (ms : Nat) (items : List (Str × Str))
    {e : FactRec} (h : e ∈ (pipeline cfg ms items).facts) :
    e.frank = cfgRank cfg e.fname ∧
    e.fname = commonPfxStrip (e.fpres.flatMap
      (fun p => e.fkeys.map (fun k => gnOf (pipeline cfg ms items).scanE p k))) := by
  rw [pipeline, dedupRun] at h ⊢
  rw [dedupGo_scanE]
  rcases dedupGo_facts _ _ _ _ h with h2 | h2
  · exact absurd h2 (by simp [initDState])
  · exact ⟨h2.2.2.1, h2.2.2.2⟩

/-! ### Concrete scenarios for claims C2, C3, C4, C5, C6 -/

/-- A configuration with no pattern rules: every item is classified by its
own fallback group name. -/
def cfg0 : Cfg := ⟨[], fun _ => none⟩

/-- The diff mapping of the C5 scenario. -/
def itemsC5 : List (Str × Str) :=
  [("wl0_ssid".data, "A".data), ("wl1_ssid".data, "A".data), ("wl2_ssid".data, "A".data),
   ("wl0_key".data, "B".data), ("wl1_key".data, "B".data), ("wl2_key".data, "B".data)]

/-- A two-category configuration whose first rule captures only the wl0
settings, so a factored group absorbs settings from two categories. -/
def cfgC6 : Cfg := ⟨["CatA".data, "CatB".data],
  fun n => if "wl0".data.isPrefixOf n then some 0 else some 1⟩

/-- Nine settings: prefixes wl0, wl1, wl2 sharing the three residual keys
`_a=va`, `_b=vb`, `_c=vc` — savings (3-1)*3-5 = 1 > 0, so exactly one
factored group is materialized. -/
def itemsC6 : List (Str × Str) :=
  [("wl0_a".data, "va".data), ("wl0_b".data, "vb".data), ("wl0_c".data, "vc".data),
   ("wl1_a".data, "va".data), ("wl1_b".data, "vb".data), ("wl1_c".data, "vc".data),
   ("wl2_a".data, "va".data), ("wl2_b".data, "vb".data), ("wl2_c".data, "vc".data)]

/-- The factored record the C6 scenario materializes. -/
def eC6 : FactRec := ((pipeline cfgC6 3 itemsC6).facts).headD ⟨[], 0, [], [], []⟩

/-- The minimum configured rank among the categories the absorbed settings
of a factored record originally belonged to (the rank claim C6 asserts). -/
def minSourceRank (cfg : Cfg) (es : List ScanE) (e : FactRec) : Nat :=
  ((e.fpres.flatMap (fun p => e.fkeys.map (fun k => cfgRank cfg (gnOf es p k)))).minimum?).getD 0

/-- Counterexample to claim C5 as stated: on the six-setting scenario with
minimum factoring size 2 and no baseline, the engine emits no loop group
at all (the claim demands exactly one over wl0 wl1 wl2): the savings
(3-1)*2-5 = -1 is not positive, so every candidate is rejected. -/
theorem C5_counterexample : (pipeline cfg0 2 itemsC5).facts.length = 0 := by decide

/-- Claim C5, amended: on that scenario the factoring engine emits no loop
group, because the best candidate (wl0, wl1, wl2) saves (3-1)*2-5 = -1
lines, which the benefit test truncates to 0. -/
theorem C5_no_factoring :
    (pipeline cfg0 2 itemsC5).facts = [] ∧
    linesSaved (initDState (collapseG cfg0 (buildGroups cfg0 (mkItems itemsC5)))).p2k
      ["wl0".data, "wl1".data, "wl2".data] none = 0 ∧
    ((3 : Int) - 1) * 2 - 5 < 0 := by
  refine ⟨by decide, by decide, by decide⟩

/-- Counterexample to claim C6 as stated: the factored group of the C6
scenario has rank 2 (the default rank of the stripped common prefix "Cat"
of the source category names), while the minimum rank among the absorbed
settings' categories is 0. -/
theorem C6_counterexample :
    ∃ e ∈ (pipeline cfgC6 3 itemsC6).facts,
      e.frank ≠ minSourceRank cfgC6 (pipeline cfgC6 3 itemsC6).scanE e ∧
      e.frank = 2 ∧ minSourceRank cfgC6 (pipeline cfgC6 3 itemsC6).scanE e = 0 := by
  decide

/-- Witness for `C4_factoring_benefit` at the C6 scenario. -/
theorem C4_factoring_benefit_witness :
    eC6 ∈ (pipeline cfgC6 3 itemsC6).facts ∧
    (3 ≤ eC6.fkeys.length ∧ 0 < savings eC6) :=
  ⟨by decide, C4_factoring_benefit cfgC6 3 itemsC6 (by decide)⟩

/-- Witness for `C6_factored_rank` at the C6 scenario. -/
theorem C6_factored_rank_witness :
    eC6 ∈ (pipeline cfgC6 3 itemsC6).facts ∧
    (eC6.frank = cfgRank cfgC6 eC6.fname ∧
      eC6.fname = commonPfxStrip (eC6.fpres.flatMap
        (fun p => eC6.fkeys.map (fun k => gnOf (pipeline cfgC6 3 itemsC6).scanE p k)))) :=
  ⟨by decide, C6_factored_rank cfgC6 3 itemsC6 (by decide)⟩

/-! ### Coverage bookkeeping (claims C2 and C3)

The number of occurrences of a setting across the original groups, and
across the expansions of the factored groups; claim C2 says their sum is
invariant through the whole pipeline. -/

/-- Occurrences of an item across a group list. -/
def cnt (gs : List PGroup) (x : PItem) : Nat := (gs.map (fun g => g.items.count x)).sum

/-- All items of a group list, in order. -/
def itemsOf (gs : List PGroup) : List PItem := gs.flatMap (fun g => g.items)

/-- Occurrences of an item across the expansions of the factored groups. -/
def factsCnt (fs : List FactRec) (x : PItem) : Nat :=
  (fs.map (fun e => (expandF e).count x)).sum

/-- The item a (prefix, key) pair denotes. -/
def pairItem (pk : Str × PKey) : PItem := ⟨pk.1 ++ pk.2.1, pk.2.2⟩

/-- Distinct item names across the original groups. -/
def namesND (gs : List PGroup) : Prop := ((itemsOf gs).map PItem.name).Nodup

/-- Distinct group names (dictionary keys). -/
def gnamesND (gs : List PGroup) : Prop := (gs.map (fun g => g.gname)).Nodup

theorem cnt_eq_count (gs : List PGroup) (x : PItem) : cnt gs x = (itemsOf gs).count x := by
  induction gs with
  | nil => rfl
  | cons g t ih => simp [cnt, itemsOf, List.count_append] at ih ⊢; omega

theorem expandF_eq (e : FactRec) :
    expandF e = (removedPairs e.fpres e.fkeys).map pairItem := by
  rw [expandF, removedPairs, List.map_flatMap]
  congr 1
  funext p
  rw [List.map_map]
  congr 1

/-! Phase 1: `buildGroups` distributes the input items into groups. -/

theorem cnt_addToGroupsGo (k : Str) (r : Nat) (it : PItem) (gs : List PGroup) (x : PItem) :
    cnt (addToGroupsGo k r it gs) x = cnt gs x + (if x = it then 1 else 0) := by
  induction gs with
  | nil =>
    rw [addToGroupsGo]
    by_cases h : x = it <;> simp [cnt, List.count_cons, h]
  | cons g t ih =>
    rw [addToGroupsGo]
    by_cases hg : g.gname = k
    · simp only [hg, if_true, reduceIte]
      have hc : ({ g with items := g.items ++ [it] } : PGroup).items.count x
          = g.items.count x + (if x = it then 1 else 0) := by
        rw [List.count_append]
        by_cases h : x = it <;> simp [h]
      simp only [cnt, List.map_cons, List.sum_cons] at ih ⊢
      rw [hc]
      omega
    · rw [if_neg hg]
      simp only [cnt, List.map_cons, List.sum_cons] at ih ⊢
      omega

theorem cnt_buildGroups (cfg : Cfg) (its : List PItem) (x : PItem) :
    cnt (buildGroups cfg its) x = its.count x := by
  suffices h : ∀ acc, cnt (its.foldl (addToGroups cfg) acc) x = cnt acc x + its.count x by
    simpa [buildGroups, cnt] using h []
  induction its with
  | nil => intro acc; simp
  | cons it t ih =>
    intro acc
    rw [List.foldl_cons, ih, addToGroups, cnt_addToGroupsGo, List.count_cons]
    by_cases h : x = it
    · subst h
      simp
      omega
    · simp [h, beq_iff_eq, Ne.symm]

theorem gnames_addToGroupsGo_mem (k : Str) (r : Nat) (it : PItem) (gs : List PGroup)
    (h : k ∈ gs.map (fun g => g.gname)) :
    (addToGroupsGo k r it gs).map (fun g => g.gname) = gs.map (fun g => g.gname) := by
  induction gs with
  | nil => simp at h
  | cons g t ih =>
    rw [addToGroupsGo]
    by_cases hg : g.gname = k
    · simp [hg]
    · rw [if_neg hg]
      simp only [List.map_cons]
      rw [List.map_cons] at h
      rcases List.mem_cons.mp h with h1 | h1
      · exact absurd h1.symm hg
      · rw [ih h1]

theorem gnames_addToGroupsGo_notmem (k : Str) (r : Nat) (it : PItem) (gs : List PGroup)
    (h : k ∉ gs.map (fun g => g.gname)) :
    (addToGroupsGo k r it gs).map (fun g => g.gname) = gs.map (fun g => g.gname) ++ [k] := by
  induction gs with
  | nil => simp [addToGroupsGo]
  | cons g t ih =>
    rw [addToGroupsGo]
    simp at h
    rw [if_neg (fun he => h.1 he.symm)]
    simp only [List.map_cons]
    rw [ih (by simpa using h.2)]
    simp

theorem gnamesND_addToGroups (cfg : Cfg) (gs : List PGroup) (it : PItem)
    (h : gnamesND gs) : gnamesND (addToGroups cfg gs it) := by
  rw [addToGroups]
  by_cases hm : cfgGroupname cfg it.name ∈ gs.map (fun g => g.gname)
  · rw [gnamesND, gnames_addToGroupsGo_mem _ _ _ _ hm]; exact h
  · rw [gnamesND, gnames_addToGroupsGo_notmem _ _ _ _ hm]
    rw [List.nodup_append]
    refine ⟨h, List.nodup_singleton _, ?_⟩
    intro a ha hb
    simp only [List.mem_singleton] at hb
    exact hm (hb ▸ ha)

theorem gnamesND_buildGroups (cfg : Cfg) (its : List PItem) :
    gnamesND (buildGroups cfg its) := by
  suffices h : ∀ acc, gnamesND acc → gnamesND (its.foldl (addToGroups cfg) acc) by
    exact h [] (by simp [gnamesND])
  induction its with
  | nil => intro acc h; exact h
  | cons it t ih => intro acc h; exact ih _ (gnamesND_addToGroups cfg acc it h)

/-- Multiset-level consequence: the grouped items are a permutation of the
inputs, so distinct input names stay distinct inside the groups. -/
theorem itemsOf_buildGroups_perm (cfg : Cfg) (its : List PItem) :
    (itemsOf (buildGroups cfg its)).Perm its := by
  rw [List.perm_iff_count]
  intro x
  rw [← cnt_eq_count, cnt_buildGroups]

theorem namesND_buildGroups (cfg : Cfg) (its : List PItem)
    (h : (its.map PItem.name).Nodup) : namesND (buildGroups cfg its) := by
  rw [namesND]
  exact ((itemsOf_buildGroups_perm cfg its).map PItem.name).nodup_iff.mpr h

/-! Phase 2: `collapse` moves items between groups without loss. -/

theorem find?_append_left {gs : List PGroup} {P : PGroup → Bool} {g : PGroup}
    (h : gs.find? P = some g) (l : List PGroup) : (gs ++ l).find? P = some g := by
  induction gs with
  | nil => simp [List.find?] at h
  | cons a t ih =>
    rw [List.cons_append]
    by_cases ha : P a
    · rw [List.find?_cons_of_pos _ ha] at h ⊢
      exact h
    · rw [List.find?_cons_of_neg _ (by simpa using ha)] at h ⊢
      exact ih h

theorem cnt_updateFirst_append (kk : Str) (l : List PItem) (gs : List PGroup) (x : PItem)
    (h : ∃ g ∈ gs, g.gname = kk) :
    cnt (updateFirst kk (fun h0 => { h0 with items := h0.items ++ l }) gs) x
      = cnt gs x + l.count x := by
  induction gs with
  | nil => simp at h
  | cons g t ih =>
    rw [updateFirst]
    by_cases hg : g.gname = kk
    · rw [if_pos hg]
      simp only [cnt, List.map_cons, List.sum_cons, List.count_append]
      omega
    · rw [if_neg hg]
      obtain ⟨g0, hg0, hkk⟩ := h
      rcases List.mem_cons.mp hg0 with he | he
      · exact absurd (he ▸ hkk) hg
      · simp only [cnt, List.map_cons, List.sum_cons]
        rw [show ((updateFirst kk (fun h0 => { h0 with items := h0.items ++ l }) t).map
          (fun g => g.items.count x)).sum = cnt (updateFirst kk
            (fun h0 => { h0 with items := h0.items ++ l }) t) x from rfl,
          ih ⟨g0, he, hkk⟩]
        simp only [cnt]
        omega

theorem cnt_eraseByName (k : Str) (gs : List PGroup) (g : PGroup) (x : PItem)
    (h : gs.find? (fun g0 => g0.gname = k) = some g) :
    cnt gs x = cnt (eraseByName k gs) x + g.items.count x := by
  induction gs with
  | nil => simp [List.find?] at h
  | cons a t ih =>
    rw [eraseByName]
    by_cases ha : a.gname = k
    · rw [if_pos ha]
      rw [List.find?_cons_of_pos _ (by simpa using ha)] at h
      have : a = g := by simpa using h
      subst this
      simp only [cnt, List.map_cons, List.sum_cons]
      omega
    · rw [if_neg ha]
      rw [List.find?_cons_of_neg _ (by simpa using ha)] at h
      simp only [cnt, List.map_cons, List.sum_cons]
      have := ih h
      simp only [cnt] at this
      omega

theorem find?_updateFirst_ne (kk k : Str) (f : PGroup → PGroup)
    (hf : ∀ h0, (f h0).gname = h0.gname) (hne : k ≠ kk) (gs : List PGroup) :
    (updateFirst kk f gs).find? (fun g => g.gname = k)
      = gs.find? (fun g => g.gname = k) := by
  induction gs with
  | nil => rfl
  | cons a t ih =>
    rw [updateFirst]
    by_cases ha : a.gname = kk
    · rw [if_pos ha]
      have hno : ¬ ((f a).gname = k) := by rw [hf a, ha]; exact fun he => hne he.symm
      have hno2 : ¬ (a.gname = k) := by rw [ha]; exact fun he => hne he.symm
      rw [List.find?_cons_of_neg _ (by simpa using hno), List.find?_cons_of_neg _ (by simpa using hno2)]
    · rw [if_neg ha]
      by_cases hak : a.gname = k
      · rw [List.find?_cons_of_pos _ (by simpa using hak), List.find?_cons_of_pos _ (by simpa using hak)]
      · rw [List.find?_cons_of_neg _ (by simpa using hak), List.find?_cons_of_neg _ (by simpa using hak)]
        exact ih

theorem gnames_updateFirst (kk : Str) (f : PGroup → PGroup)
    (hf : ∀ h0, (f h0).gname = h0.gname) (gs : List PGroup) :
    (updateFirst kk f gs).map (fun g => g.gname) = gs.map (fun g => g.gname) := by
  induction gs with
  | nil => rfl
  | cons a t ih =>
    rw [updateFirst]
    by_cases ha : a.gname = kk
    · rw [if_pos ha]
      simp [hf a]
    · rw [if_neg ha]
      simp only [List.map_cons]
      rw [ih]

theorem gnames_eraseByName (k : Str) (gs : List PGroup) :
    ((eraseByName k gs).map (fun g => g.gname)).Sublist (gs.map (fun g => g.gname)) := by
  induction gs with
  | nil => simp [eraseByName]
  | cons a t ih =>
    rw [eraseByName]
    by_cases ha : a.gname = k
    · rw [if_pos ha]
      simp only [List.map_cons]
      exact (List.sublist_cons_self _ _)
    · rw [if_neg ha]
      simp only [List.map_cons]
      exact ih.cons₂ _

theorem collapseKeys_ne_other (cfg : Cfg) (gs : List PGroup) {k : Str}
    (h : k ∈ collapseKeys cfg gs) : k ≠ otherKey := by
  rw [collapseKeys] at h
  obtain ⟨g, hg, he⟩ := List.mem_map.mp h
  have := (List.mem_filter.mp hg).2
  simp only [Bool.and_eq_true, Bool.not_eq_true', decide_eq_false_iff_not] at this
  exact he ▸ this.2

theorem cnt_collapseStep (cfg : Cfg) (gs : List PGroup) (k : Str) (x : PItem)
    (hk : k ≠ otherKey) : cnt (collapseStep cfg gs k) x = cnt gs x := by
  rw [collapseStep]
  cases hf : gs.find? (fun g => g.gname = k) with
  | none => rfl
  | some g =>
    by_cases hany : gs.any (fun h0 => h0.gname = otherKey)
    · simp only [hany, if_true, reduceIte]
      obtain ⟨g1, hg1, hg1o⟩ : ∃ g1 ∈ gs, g1.gname = otherKey := by
        simpa using hany
      have hfind1 : (updateFirst otherKey
          (fun h0 => { h0 with items := h0.items ++ g.items }) gs).find?
          (fun g0 => g0.gname = k) = some g := by
        rw [find?_updateFirst_ne otherKey k
          (fun h0 => { h0 with items := h0.items ++ g.items }) (fun _ => rfl) hk gs]
        exact hf
      have h1 := cnt_updateFirst_append otherKey g.items gs x ⟨g1, hg1, hg1o⟩
      have h2 := cnt_eraseByName k _ g x hfind1
      omega
    · simp only [hany, Bool.false_eq_true, if_false, reduceIte]
      have hfind0 : (gs ++ [emptyOther cfg]).find? (fun g0 => g0.gname = k) = some g :=
        find?_append_left hf _
      have hex : ∃ g1 ∈ gs ++ [emptyOther cfg], g1.gname = otherKey :=
        ⟨emptyOther cfg, List.mem_append_right _ (List.mem_singleton_self _), rfl⟩
      have hfind1 : (updateFirst otherKey
          (fun h0 => { h0 with items := h0.items ++ g.items })
          (gs ++ [emptyOther cfg])).find? (fun g0 => g0.gname = k) = some g := by
        rw [find?_updateFirst_ne otherKey k
          (fun h0 => { h0 with items := h0.items ++ g.items }) (fun _ => rfl) hk _]
        exact hfind0
      have h1 := cnt_updateFirst_append otherKey g.items (gs ++ [emptyOther cfg]) x hex
      have h2 := cnt_eraseByName k _ g x hfind1
      have h3 : cnt (gs ++ [emptyOther cfg]) x = cnt gs x := by
        simp [cnt, emptyOther]
      omega

theorem gnamesND_collapseStep (cfg : Cfg) (gs : List PGroup) (k : Str)
    (h : gnamesND gs) : gnamesND (collapseStep cfg gs k) := by
  rw [collapseStep]
  cases hf : gs.find? (fun g => g.gname = k) with
  | none => exact h
  | some g =>
    by_cases hany : gs.any (fun h0 => h0.gname = otherKey)
    · simp only [hany, if_true, reduceIte]
      rw [gnamesND]
      refine (gnames_eraseByName k _).nodup ?_
      rw [gnames_updateFirst otherKey
        (fun h0 => { h0 with items := h0.items ++ g.items }) (fun _ => rfl) gs]
      exact h
    · simp only [hany, Bool.false_eq_true, if_false, reduceIte]
      rw [gnamesND]
      refine (gnames_eraseByName k _).nodup ?_
      rw [gnames_updateFirst otherKey
        (fun h0 => { h0 with items := h0.items ++ g.items }) (fun _ => rfl) (gs ++ [emptyOther cfg])]
      rw [List.map_append, List.nodup_append]
      refine ⟨h, by simp, ?_⟩
      intro a ha hb
      simp only [emptyOther, List.map_cons, List.map_nil, List.mem_singleton] at hb
      rw [Bool.not_eq_true, List.any_eq_false] at hany
      obtain ⟨g1, hg1, he⟩ := List.mem_map.mp ha
      have := hany g1 hg1
      exact this (by simp [he.trans hb])

theorem cnt_collapseG (cfg : Cfg) (gs : List PGroup) (x : PItem) :
    cnt (collapseG cfg gs) x = cnt gs x := by
  rw [collapseG]
  have hks := fun {k} (hk : k ∈ collapseKeys cfg gs) => collapseKeys_ne_other cfg gs hk
  generalize collapseKeys cfg gs = ks at hks
  induction ks generalizing gs with
  | nil => rfl
  | cons k t ih =>
    rw [List.foldl_cons]
    rw [ih (collapseStep cfg gs k) (fun hk => hks (List.mem_cons_of_mem _ hk)),
      cnt_collapseStep cfg gs k x (hks (List.mem_cons_self _ _))]

theorem gnamesND_collapseG (cfg : Cfg) (gs : List PGroup) (h : gnamesND gs) :
    gnamesND (collapseG cfg gs) := by
  rw [collapseG]
  generalize collapseKeys cfg gs = ks
  induction ks generalizing gs with
  | nil => exact h
  | cons k t ih =>
    rw [List.foldl_cons]
    exact ih _ (gnamesND_collapseStep cfg gs k h)

theorem itemsOf_collapseG_perm (cfg : Cfg) (gs : List PGroup) :
    (itemsOf (collapseG cfg gs)).Perm (itemsOf gs) := by
  rw [List.perm_iff_count]
  intro x
  rw [← cnt_eq_count, ← cnt_eq_count, cnt_collapseG]

theorem namesND_collapseG (cfg : Cfg) (gs : List PGroup) (h : namesND gs) :
    namesND (collapseG cfg gs) := by
  rw [namesND]
  exact ((itemsOf_collapseG_perm cfg gs).map PItem.name).nodup_iff.mpr h

/-! Phase 3: soundness of the Deduper's scan and `prefix_to_keys`. -/

theorem takeWhile_dropWhile_len (p : α → Bool) (l : List α) :
    (l.takeWhile p).length + (l.dropWhile p).length = l.length := by
  conv_rhs => rw [← List.takeWhile_append_dropWhile (p := p) (l := l)]
  rw [List.length_append]

theorem prefixEndA1_le {n : Str} {e : Nat} (h : prefixEndA1 n = some e) : e ≤ n.length := by
  rw [prefixEndA1] at h
  split at h
  · exact absurd h (by simp)
  · split at h
    · exact absurd h (by simp)
    · next c r2 heq =>
      split at h
      · dsimp only at h
        split at h
        · have he : e = (n.takeWhile isLowerA).length + 1 + (r2.takeWhile isLowerA).length
              + ((r2.dropWhile isLowerA).takeWhile isDigitA).length := by
            simpa using h.symm
          have h1 := takeWhile_dropWhile_len isLowerA n
          have h2 : (n.dropWhile isLowerA).length = r2.length + 1 := by rw [heq]; rfl
          have h3 := takeWhile_dropWhile_len isLowerA r2
          have h4 := (List.takeWhile_sublist (l := r2.dropWhile isLowerA)
            (p := isDigitA)).length_le
          omega
        · exact absurd h (by simp)
      · exact absurd h (by simp)

theorem prefixEndA2_le {n : Str} {e : Nat} (h : prefixEndA2 n = some e) : e ≤ n.length := by
  rw [prefixEndA2] at h
  split at h
  · have he : e = (n.takeWhile isLowerA).length
        + ((n.dropWhile isLowerA).takeWhile isDigitA).length := by
      simpa using h.symm
    have h1 := takeWhile_dropWhile_len isLowerA n
    have h2 := (List.takeWhile_sublist (l := n.dropWhile isLowerA)
      (p := isDigitA)).length_le
    omega
  · exact absurd h (by simp)

theorem prefixMatchEnd_le {n : Str} {e : Nat} (h : prefixMatchEnd n = some e) :
    e ≤ n.length := by
  rw [prefixMatchEnd] at h
  cases h1 : prefixEndA1 n with
  | some e1 => rw [h1] at h; simp [Option.orElse] at h; exact h ▸ prefixEndA1_le h1
  | none => rw [h1] at h; simp [Option.orElse] at h; exact prefixEndA2_le h

theorem scanE_sound {gs : List PGroup} {e' : ScanE} (h : e' ∈ scanEntriesOf gs) :
    ∃ g ∈ gs, g.gname = e'.gname ∧ pairItem (e'.pfx, e'.key) ∈ g.items ∧
      prefixMatchEnd (e'.pfx ++ e'.key.1) = some e'.pfx.length := by
  rw [scanEntriesOf] at h
  obtain ⟨g, hg, h2⟩ := List.mem_flatMap.mp h
  obtain ⟨it, hit, h3⟩ := List.mem_filterMap.mp h2
  cases hm : prefixMatchEnd it.name with
  | none => rw [hm] at h3; exact absurd h3 (by simp)
  | some en =>
    rw [hm] at h3
    have h4 : (⟨it.name.take en, (it.name.drop en, it.value), g.gname⟩ : ScanE) = e' := by
      simpa using h3
    have hle := prefixMatchEnd_le hm
    have hname : e'.pfx ++ e'.key.1 = it.name := by
      rw [← h4]
      exact List.take_append_drop en it.name
    have hplen : e'.pfx.length = en := by
      rw [← h4]
      simpa [List.length_take] using Nat.min_eq_left hle
    refine ⟨g, hg, by rw [← h4], ?_, by rw [hname, hplen]; exact hm⟩
    have : pairItem (e'.pfx, e'.key) = it := by
      rw [pairItem]
      rw [← h4]
      show (⟨it.name.take en ++ it.name.drop en, it.value⟩ : PItem) = it
      rw [List.take_append_drop]
    rw [this]
    exact hit

theorem lookup_cons (e : Str × List PKey) (m : List (Str × List PKey)) (p : Str) :
    lookupKeys (e :: m) p = if e.1 = p then e.2 else lookupKeys m p := by
  by_cases h : e.1 = p
  · rw [lookupKeys, List.find?_cons_of_pos _ (by simpa using h), if_pos h]
  · rw [lookupKeys, List.find?_cons_of_neg _ (by simpa using h), if_neg h, lookupKeys]

theorem lookup_addKey (m : List (Str × List PKey)) (p0 p : Str) (k0 k : PKey) :
    k ∈ lookupKeys (addKey m p0 k0) p ↔ (p = p0 ∧ k = k0) ∨ k ∈ lookupKeys m p := by
  induction m with
  | nil =>
    rw [addKey, lookup_cons]
    by_cases h : p0 = p
    · subst h
      simp [lookupKeys, eq_comm]
    · rw [if_neg h]
      simp [lookupKeys, List.find?]
      exact fun he => absurd he.symm h
  | cons e m ih =>
    rw [addKey]
    by_cases he : e.1 = p0
    · rw [if_pos he, lookup_cons, lookup_cons]
      by_cases hp : e.1 = p
      · rw [if_pos hp, if_pos hp]
        have hpp0 : p = p0 := hp ▸ he
        by_cases hk : k0 ∈ e.2
        · rw [if_pos hk]
          simp [hpp0]
          intro hkk
          exact hkk ▸ hk
        · rw [if_neg hk]
          simp [hpp0, List.mem_append]
          tauto
      · rw [if_neg hp, if_neg hp]
        have : ¬ (p = p0) := fun hc => hp (hc ▸ he)
        simp [this]
    · rw [if_neg he, lookup_cons, lookup_cons]
      by_cases hp : e.1 = p
      · rw [if_pos hp, if_pos hp]
        have : ¬ (p = p0) := fun hc => he (hp.trans hc)
        simp [this]
      · rw [if_neg hp, if_neg hp]
        exact ih

theorem mem_initP2k (es : List ScanE) (p : Str) (k : PKey) :
    k ∈ lookupKeys (initP2k es) p ↔ ∃ e' ∈ es, e'.pfx = p ∧ e'.key = k := by
  suffices h : ∀ acc, k ∈ lookupKeys (es.foldl (fun m e => addKey m e.pfx e.key) acc) p ↔
      (∃ e' ∈ es, e'.pfx = p ∧ e'.key = k) ∨ k ∈ lookupKeys acc p by
    rw [initP2k, h []]
    simp [lookupKeys, List.find?]
  induction es with
  | nil => intro acc; simp
  | cons e t ih =>
    intro acc
    rw [List.foldl_cons, ih (addKey acc e.pfx e.key)]
    rw [lookup_addKey]
    constructor
    · rintro (h | (⟨h1, h2⟩ | h))
      · obtain ⟨e', he', h1, h2⟩ := h
        exact Or.inl ⟨e', List.mem_cons_of_mem _ he', h1, h2⟩
      · exact Or.inl ⟨e, List.mem_cons_self _ _, h1.symm, h2.symm⟩
      · exact Or.inr h
    · rintro (⟨e', he', h1, h2⟩ | h)
      · rcases List.mem_cons.mp he' with he | he
        · subst he
          exact Or.inr (Or.inl ⟨h1.symm, h2.symm⟩)
        · exact Or.inl ⟨e', he, h1, h2⟩
      · exact Or.inr (Or.inr h)

theorem nodup_lookup_addKey (m : List (Str × List PKey)) (p0 p : Str) (k0 : PKey)
    (h : (lookupKeys m p).Nodup) : (lookupKeys (addKey m p0 k0) p).Nodup := by
  induction m with
  | nil =>
    rw [addKey, lookup_cons]
    by_cases hp : p0 = p
    · simp [hp]
    · rw [if_neg hp]; exact h
  | cons e m ih =>
    rw [addKey]
    by_cases he : e.1 = p0
    · rw [if_pos he, lookup_cons]
      rw [lookup_cons] at h
      by_cases hp : e.1 = p
      · rw [if_pos hp]
        rw [if_pos hp] at h
        by_cases hk : k0 ∈ e.2
        · simpa [hk] using h
        · simp only [hk, Bool.false_eq_true, if_false, reduceIte]
          rw [List.nodup_append]
          exact ⟨h, by simp, by intro a ha hb; simp at hb; exact hk (hb ▸ ha)⟩
      · rw [if_neg hp]
        rw [if_neg hp] at h
        exact h
    · rw [if_neg he, lookup_cons]
      rw [lookup_cons] at h
      by_cases hp : e.1 = p
      · rw [if_pos hp]; rw [if_pos hp] at h; exact h
      · rw [if_neg hp]; rw [if_neg hp] at h; exact ih h

theorem nodup_lookup_initP2k (es : List ScanE) (p : Str) :
    (lookupKeys (initP2k es) p).Nodup := by
  suffices h : ∀ acc, (∀ q, (lookupKeys acc q).Nodup) →
      (lookupKeys (es.foldl (fun m e => addKey m e.pfx e.key) acc) p).Nodup by
    exact h [] (fun q => by simp [lookupKeys, List.find?])
  induction es with
  | nil => intro acc hacc; exact hacc p
  | cons e t ih =>
    intro acc hacc
    rw [List.foldl_cons]
    exact ih _ (fun q => nodup_lookup_addKey acc e.pfx q e.key (hacc q))

/-- The running invariant of `Deduper.dedup`: every live (prefix, key) pair
matches the prefix pattern at exactly the prefix boundary, denotes an item
present in the group recorded for it, the groups hold pairwise distinct
setting names and group names, and key sets are duplicate-free. -/
structure DInv (st : DState) : Prop where
  keyMatch : ∀ p k, k ∈ lookupKeys st.p2k p → prefixMatchEnd (p ++ k.1) = some p.length
  keyItem : ∀ p k, k ∈ lookupKeys st.p2k p →
    ∃ g ∈ st.origs, g.gname = gnOf st.scanE p k ∧ pairItem (p, k) ∈ g.items
  namesO : namesND st.origs
  gnamesO : gnamesND st.origs
  keysND : ∀ p, (lookupKeys st.p2k p).Nodup

theorem initDInv (gs : List PGroup) (hn : namesND gs) (hg : gnamesND gs) :
    DInv (initDState gs) := by
  constructor
  · intro p k hk
    rw [show (initDState gs).p2k = initP2k (scanEntriesOf gs) from rfl] at hk
    obtain ⟨e', he', h1, h2⟩ := (mem_initP2k _ p k).mp hk
    obtain ⟨g, hgm, hgn, hmem, hpm⟩ := scanE_sound he'
    rw [← h1, ← h2]
    exact hpm
  · intro p k hk
    rw [show (initDState gs).p2k = initP2k (scanEntriesOf gs) from rfl] at hk
    have hex := (mem_initP2k _ p k).mp hk
    have hsome : ((scanEntriesOf gs).find? (fun e => e.pfx = p && e.key = k)).isSome := by
      rw [List.find?_isSome]
      obtain ⟨e', he', h1, h2⟩ := hex
      exact ⟨e', he', by simp [h1, h2]⟩
    obtain ⟨e0, he0⟩ := Option.isSome_iff_exists.mp hsome
    have he0m := List.mem_of_find?_eq_some he0
    have he0p : e0.pfx = p ∧ e0.key = k := by
      have := List.find?_some he0
      simpa using this
    obtain ⟨g, hgm, hgn, hmem, _⟩ := scanE_sound he0m
    refine ⟨g, hgm, ?_, ?_⟩
    · rw [hgn, show (initDState gs).scanE = scanEntriesOf gs from rfl, gnOf, he0]
    · rw [← he0p.1, ← he0p.2]
      exact hmem
  · exact hn
  · exact hg
  · intro p
    exact nodup_lookup_initP2k _ p

/-! Phase 4: specification of the removal closures. -/

/-- A group list contains item `x` under the group name `n0`. -/
def hasItem (gs : List PGroup) (n0 : Str) (x : PItem) : Prop :=
  ∃ g ∈ gs, g.gname = n0 ∧ x ∈ g.items

theorem find?_of_mem_nodup {gs : List PGroup} {g : PGroup} (hg : gnamesND gs)
    (hmem : g ∈ gs) : gs.find? (fun h0 => h0.gname = g.gname) = some g := by
  induction gs with
  | nil => simp at hmem
  | cons a t ih =>
    rw [gnamesND, List.map_cons, List.nodup_cons] at hg
    rcases List.mem_cons.mp hmem with he | he
    · subst he
      exact List.find?_cons_of_pos _ (by simp)
    · have hne : ¬ (a.gname = g.gname) := by
        intro hc
        exact hg.1 (hc ▸ List.mem_map_of_mem (fun g0 => g0.gname) he)
      rw [List.find?_cons_of_neg _ (by simpa using hne)]
      exact ih hg.2 he

theorem mem_unique_by_name {gs : List PGroup} {g g0 : PGroup} {gn : Str}
    (hg : gnamesND gs) (hfind : gs.find? (fun h0 => h0.gname = gn) = some g)
    (hmem : g0 ∈ gs) (hname : g0.gname = gn) : g0 = g := by
  have h1 := find?_of_mem_nodup hg hmem
  rw [hname] at h1
  rw [h1] at hfind
  simpa using hfind

theorem cnt_updateFirst (gn : Str) (f : PGroup → PGroup) {gs : List PGroup} {g : PGroup}
    (hfind : gs.find? (fun h0 => h0.gname = gn) = some g) (x : PItem) :
    cnt (updateFirst gn f gs) x + g.items.count x = cnt gs x + (f g).items.count x := by
  induction gs with
  | nil => simp [List.find?] at hfind
  | cons a t ih =>
    rw [updateFirst]
    by_cases ha : a.gname = gn
    · rw [if_pos ha]
      rw [List.find?_cons_of_pos _ (by simpa using ha)] at hfind
      have : a = g := by simpa using hfind
      subst this
      simp only [cnt, List.map_cons, List.sum_cons]
      omega
    · rw [if_neg ha]
      rw [List.find?_cons_of_neg _ (by simpa using ha)] at hfind
      have := ih hfind
      simp only [cnt, List.map_cons, List.sum_cons] at this ⊢
      omega

theorem find?_updateFirst_self (gn : Str) (f : PGroup → PGroup)
    (hf : ∀ h0, (f h0).gname = h0.gname) {gs : List PGroup} {g : PGroup}
    (hfind : gs.find? (fun h0 => h0.gname = gn) = some g) :
    (updateFirst gn f gs).find? (fun h0 => h0.gname = gn) = some (f g) := by
  induction gs with
  | nil => simp [List.find?] at hfind
  | cons a t ih =>
    rw [updateFirst]
    by_cases ha : a.gname = gn
    · rw [if_pos ha]
      rw [List.find?_cons_of_pos _ (by simpa using ha)] at hfind
      have : a = g := by simpa using hfind
      subst this
      exact List.find?_cons_of_pos _ (by simp [hf a, ha])
    · rw [if_neg ha]
      rw [List.find?_cons_of_neg _ (by simpa using ha)] at hfind
      rw [List.find?_cons_of_neg _ (by simpa using ha)]
      exact ih hfind

theorem mem_updateFirst_ne (gn : Str) (f : PGroup → PGroup) {gs : List PGroup}
    {g0 : PGroup} (hmem : g0 ∈ gs) (hne : g0.gname ≠ gn) :
    g0 ∈ updateFirst gn f gs := by
  induction gs with
  | nil => simp at hmem
  | cons a t ih =>
    rw [updateFirst]
    rcases List.mem_cons.mp hmem with he | he
    · subst he
      rw [if_neg hne]
      exact List.mem_cons_self _ _
    · by_cases ha : a.gname = gn
      · rw [if_pos ha]
        exact List.mem_cons_of_mem _ he
      · rw [if_neg ha]
        exact List.mem_cons_of_mem _ (ih he)

theorem mem_updateFirst_self (gn : Str) (f : PGroup → PGroup) {gs : List PGroup}
    {g : PGroup} (hfind : gs.find? (fun h0 => h0.gname = gn) = some g) :
    f g ∈ updateFirst gn f gs := by
  induction gs with
  | nil => simp [List.find?] at hfind
  | cons a t ih =>
    rw [updateFirst]
    by_cases ha : a.gname = gn
    · rw [if_pos ha]
      rw [List.find?_cons_of_pos _ (by simpa using ha)] at hfind
      have : a = g := by simpa using hfind
      subst this
      exact List.mem_cons_self _ _
    · rw [if_neg ha]
      rw [List.find?_cons_of_neg _ (by simpa using ha)] at hfind
      exact List.mem_cons_of_mem _ (ih hfind)

theorem mem_eraseByName_ne (k : Str) {gs : List PGroup} {g0 : PGroup}
    (hmem : g0 ∈ gs) (hne : g0.gname ≠ k) : g0 ∈ eraseByName k gs := by
  induction gs with
  | nil => simp at hmem
  | cons a t ih =>
    rw [eraseByName]
    rcases List.mem_cons.mp hmem with he | he
    · subst he
      rw [if_neg hne]
      exact List.mem_cons_self _ _
    · by_cases ha : a.gname = k
      · rw [if_pos ha]
        exact he
      · rw [if_neg ha]
        exact List.mem_cons_of_mem _ (ih he)

theorem erase_eq_nil {l : List PItem} {it : PItem} (hmem : it ∈ l)
    (h : l.erase it = []) : l = [it] := by
  cases l with
  | nil => simp at hmem
  | cons a t =>
    rw [List.erase_cons] at h
    by_cases ha : a = it
    · rw [if_pos (by simpa using ha)] at h
      rw [ha, h]
    · rw [if_neg (by simpa using ha)] at h
      exact absurd h (by simp)

theorem removeOne_spec {gs : List PGroup} {gn : Str} {it : PItem} (hg : gnamesND gs)
    (hex : ∃ g ∈ gs, g.gname = gn ∧ it ∈ g.items) :
    (removeOne gs gn it).2 = [it] ∧
    (∀ x, cnt (removeOne gs gn it).1 x + (if x = it then 1 else 0) = cnt gs x) ∧
    gnamesND (removeOne gs gn it).1 ∧
    (∀ n0 x, x ≠ it → hasItem gs n0 x → hasItem (removeOne gs gn it).1 n0 x) := by
  obtain ⟨g0, hg0, hgn, hit⟩ := hex
  have hfind : gs.find? (fun h0 => h0.gname = gn) = some g0 := by
    have := find?_of_mem_nodup hg hg0
    rw [hgn] at this
    exact this
  rw [removeOne, hfind]
  dsimp only
  rw [if_pos hit]
  by_cases hempty : g0.items.erase it = []
  · rw [if_pos hempty]
    dsimp only
    have hsing : g0.items = [it] := erase_eq_nil hit hempty
    have hffind := find?_updateFirst_self gn
      (fun h0 => { h0 with items := h0.items.erase it }) (fun _ => rfl) hfind
    refine ⟨rfl, ?_, ?_, ?_⟩
    · intro x
      have h1 := cnt_updateFirst gn
        (fun h0 => { h0 with items := h0.items.erase it }) hfind x
      have h2 := cnt_eraseByName gn _ _ x hffind
      dsimp only at h1 h2
      have h3 : (g0.items.erase it).count x = 0 := by rw [hempty]; simp
      rw [h3] at h1 h2
      by_cases hx : x = it
      · subst hx
        have h4 : g0.items.count x = 1 := by rw [hsing]; simp
        rw [h4] at h1
        rw [if_pos rfl]
        omega
      · have h4 : g0.items.count x = 0 := by
          rw [hsing]
          simp [List.count_singleton, hx]
        rw [h4] at h1
        rw [if_neg hx]
        omega
    · rw [gnamesND]
      refine (gnames_eraseByName gn _).nodup ?_
      rw [gnames_updateFirst gn (fun h0 => { h0 with items := h0.items.erase it })
        (fun _ => rfl) gs]
      exact hg
    · intro n0 x hne hhas
      obtain ⟨g1, hg1, hn1, hx1⟩ := hhas
      by_cases h1 : g1.gname = gn
      · have : g1 = g0 := mem_unique_by_name hg hfind hg1 h1
        subst this
        rw [hsing] at hx1
        exact absurd (by simpa using hx1) hne
      · refine ⟨g1, ?_, hn1, hx1⟩
        exact mem_eraseByName_ne gn (mem_updateFirst_ne gn _ hg1 h1) h1
  · rw [if_neg hempty]
    dsimp only
    refine ⟨rfl, ?_, ?_, ?_⟩
    · intro x
      have h1 := cnt_updateFirst gn
        (fun h0 => { h0 with items := h0.items.erase it }) hfind x
      dsimp only at h1
      by_cases hx : x = it
      · subst hx
        have hc := List.count_erase_self x g0.items
        have hpos : 0 < g0.items.count x := List.count_pos_iff.mpr hit
        rw [if_pos rfl]
        omega
      · have hc := List.count_erase_of_ne hx g0.items
        rw [if_neg hx]
        omega
    · rw [gnamesND]
      rw [gnames_updateFirst gn (fun h0 => { h0 with items := h0.items.erase it })
        (fun _ => rfl) gs]
      exact hg
    · intro n0 x hne hhas
      obtain ⟨g1, hg1, hn1, hx1⟩ := hhas
      by_cases h1 : g1.gname = gn
      · have he : g1 = g0 := mem_unique_by_name hg hfind hg1 h1
        subst he
        refine ⟨{ g1 with items := g1.items.erase it }, mem_updateFirst_self gn _ hfind,
          hn1, ?_⟩
        exact (List.mem_erase_of_ne hne).mpr hx1
      · exact ⟨g1, mem_updateFirst_ne gn _ hg1 h1, hn1, hx1⟩

/-! Phase 5: the fold of the cleanup closures over all removed pairs. -/

/-- The fold inside `removeAll`, abstracted over the pair list and the
accumulator. -/
def remGo (es : List ScanE) (pws : List (Str × PKey)) (st : List PGroup × List PItem) :
    List PGroup × List PItem :=
  pws.foldl (fun acc pk =>
    let r := removeOne acc.1 (gnOf es pk.1 pk.2) ⟨pk.1 ++ pk.2.1, pk.2.2⟩
    (r.1, acc.2 ++ r.2)) st

theorem removeAll_eq_remGo (es : List ScanE) (gs : List PGroup) (ps : List Str)
    (ks : List PKey) : removeAll es gs ps ks = remGo es (removedPairs ps ks) (gs, []) := rfl

theorem remGo_spec (es : List ScanE) (pws : List (Str × PKey)) :
    ∀ (gs : List PGroup) (acc : List PItem), gnamesND gs →
    (pws.map pairItem).Nodup →
    (∀ pk ∈ pws, hasItem gs (gnOf es pk.1 pk.2) (pairItem pk)) →
    (remGo es pws (gs, acc)).2 = acc ++ pws.map pairItem ∧
    (∀ x, cnt (remGo es pws (gs, acc)).1 x + (pws.map pairItem).count x = cnt gs x) ∧
    gnamesND (remGo es pws (gs, acc)).1 ∧
    (∀ n0 x, x ∉ pws.map pairItem → hasItem gs n0 x →
      hasItem (remGo es pws (gs, acc)).1 n0 x) := by
  induction pws with
  | nil =>
    intro gs acc hg _ _
    exact ⟨by simp [remGo], fun x => by simp [remGo], hg, fun n0 x _ h => h⟩
  | cons pk t ih =>
    intro gs acc hg hnd hpres
    have hpe : (⟨pk.1 ++ pk.2.1, pk.2.2⟩ : PItem) = pairItem pk := rfl
    have hspec := removeOne_spec hg (by
      obtain ⟨g, hgm, hn, hx⟩ := hpres pk (List.mem_cons_self _ _)
      exact ⟨g, hgm, hn, hx⟩)
    rw [List.map_cons, List.nodup_cons] at hnd
    have hstep : remGo es (pk :: t) (gs, acc)
        = remGo es t ((removeOne gs (gnOf es pk.1 pk.2) (pairItem pk)).1,
            acc ++ (removeOne gs (gnOf es pk.1 pk.2) (pairItem pk)).2) := rfl
    rw [hstep, hspec.1]
    have hih := ih (removeOne gs (gnOf es pk.1 pk.2) (pairItem pk)).1
      (acc ++ [pairItem pk]) hspec.2.2.1 hnd.2 (by
        intro pk2 hpk2
        refine hspec.2.2.2 _ _ ?_ (hpres pk2 (List.mem_cons_of_mem _ hpk2))
        intro hc
        exact hnd.1 (hc ▸ List.mem_map_of_mem pairItem hpk2))
    refine ⟨?_, ?_, hih.2.2.1, ?_⟩
    · rw [hih.1, List.map_cons, List.append_assoc]
      rfl
    · intro x
      have h1 := hih.2.1 x
      have h2 := hspec.2.1 x
      rw [List.map_cons]
      by_cases hx : x = pairItem pk
      · subst hx
        rw [List.count_cons_self]
        rw [if_pos rfl] at h2
        omega
      · rw [List.count_cons_of_ne hx]
        rw [if_neg hx] at h2
        omega
    · intro n0 x hnx hhas
      rw [List.map_cons, List.mem_cons] at hnx
      push_neg at hnx
      exact hih.2.2.2 n0 x hnx.2 (hspec.2.2.2 n0 x hnx.1 hhas)

/-! Phase 6: one `dstep` preserves the invariant and the item count. -/

theorem commonKeys_mem {m : List (Str × List PKey)} {ps : List Str} {k : PKey}
    (h : k ∈ commonKeys m ps) : ∀ p ∈ ps, k ∈ lookupKeys m p := by
  cases ps with
  | nil => simp [commonKeys] at h
  | cons p0 rest =>
    rw [commonKeys] at h
    have h2 := List.mem_filter.mp h
    intro p hp
    rcases List.mem_cons.mp hp with he | he
    · exact he ▸ h2.1
    · have := List.all_eq_true.mp h2.2 p he
      simpa using this

theorem commonKeys_nodup {m : List (Str × List PKey)} (ps : List Str)
    (h : ∀ p, (lookupKeys m p).Nodup) : (commonKeys m ps).Nodup := by
  cases ps with
  | nil => simp [commonKeys]
  | cons p0 rest => exact (h p0).filter _

theorem linesSaved_len {m : List (Str × List PKey)} {ps : List Str}
    {ks : Option (List PKey)} (h : 0 < linesSaved m ps ks) : 1 < ps.length := by
  rw [linesSaved.eq_def] at h
  by_cases hl : 1 < ps.length
  · exact hl
  · rw [if_neg hl] at h
    exact absurd h (by simp)

theorem pairItem_inj {p p' : Str} {k k' : PKey}
    (h : prefixMatchEnd (p ++ k.1) = some p.length)
    (h' : prefixMatchEnd (p' ++ k'.1) = some p'.length)
    (he : pairItem (p, k) = pairItem (p', k')) : p = p' ∧ k = k' := by
  have hname : p ++ k.1 = p' ++ k'.1 := congrArg PItem.name he
  have hval : k.2 = k'.2 := congrArg PItem.value he
  have hlen : p.length = p'.length := by
    rw [hname, h'] at h
    simpa using h.symm
  have hp : p = p' := by
    have h1 : (p ++ k.1).take p.length = p := List.take_left p k.1
    have h2 : (p' ++ k'.1).take p'.length = p' := List.take_left p' k'.1
    rw [← h1, ← h2, hname, hlen]
  refine ⟨hp, ?_⟩
  have hk1 : k.1 = k'.1 := by
    rw [hp] at hname
    exact List.append_cancel_left hname
  exact Prod.ext hk1 hval

theorem mem_removedPairs {ps : List Str} {ks : List PKey} {pr : Str × PKey} :
    pr ∈ removedPairs ps ks ↔ pr.1 ∈ ps ∧ pr.2 ∈ ks := by
  constructor
  · intro h
    obtain ⟨p, hp, h2⟩ := List.mem_flatMap.mp h
    obtain ⟨k, hk, he⟩ := List.mem_map.mp h2
    rw [← he]
    exact ⟨hp, hk⟩
  · rintro ⟨h1, h2⟩
    exact List.mem_flatMap.mpr ⟨pr.1, h1, List.mem_map.mpr ⟨pr.2, h2, rfl⟩⟩

theorem removedPairs_nodup {ps : List Str} {ks : List PKey}
    (hps : ps.Nodup) (hks : ks.Nodup) : (removedPairs ps ks).Nodup := by
  induction ps with
  | nil => simp [removedPairs]
  | cons p t ih =>
    rw [List.nodup_cons] at hps
    rw [removedPairs, List.flatMap_cons]
    rw [List.nodup_append]
    refine ⟨hks.map (fun a b hab => by simpa using hab), ?_, ?_⟩
    · exact ih hps.2
    · intro a ha hb
      obtain ⟨k, _, he⟩ := List.mem_map.mp ha
      have hb2 := mem_removedPairs.mp (show a ∈ removedPairs t ks from hb)
      rw [← he] at hb2
      exact hps.1 hb2.1

theorem find?_map_fst (f : Str × List PKey → Str × List PKey)
    (hf : ∀ e, (f e).1 = e.1) (m : List (Str × List PKey)) (p : Str) :
    (m.map f).find? (fun e => e.1 = p) = (m.find? (fun e => e.1 = p)).map f := by
  induction m with
  | nil => rfl
  | cons e t ih =>
    rw [List.map_cons]
    by_cases hp : e.1 = p
    · rw [List.find?_cons_of_pos _ (by simp [hf e, hp]),
        List.find?_cons_of_pos _ (by simpa using hp)]
      rfl
    · rw [List.find?_cons_of_neg _ (by simp [hf e, hp]),
        List.find?_cons_of_neg _ (by simpa using hp)]
      exact ih

theorem lookup_p2kFilter_sub {m : List (Str × List PKey)} {ps : List Str}
    {ks : List PKey} {p : Str} {k : PKey}
    (h : k ∈ lookupKeys (m.map (fun e =>
      if e.1 ∈ ps then (e.1, e.2.filter (fun k2 => !(ks.contains k2))) else e)) p) :
    k ∈ lookupKeys m p ∧ (p ∈ ps → k ∉ ks) := by
  have hff : ∀ e : Str × List PKey,
      ((if e.1 ∈ ps then (e.1, e.2.filter (fun k2 => !(ks.contains k2))) else e) :
        Str × List PKey).1 = e.1 := by
    intro e
    split <;> rfl
  rw [lookupKeys, find?_map_fst _ hff m p] at h
  cases hf : m.find? (fun e => e.1 = p) with
  | none =>
    rw [hf] at h
    simp at h
  | some e =>
    rw [hf] at h
    have hp : e.1 = p := by simpa using List.find?_some hf
    have hlk : lookupKeys m p = e.2 := by rw [lookupKeys, hf]
    simp only [Option.map_some'] at h
    by_cases hmem : e.1 ∈ ps
    · rw [if_pos hmem] at h
      have h2 : k ∈ e.2.filter (fun k2 => !(ks.contains k2)) := h
      have h3 := List.mem_filter.mp h2
      refine ⟨hlk ▸ h3.1, fun _ hk => ?_⟩
      have h4 : (ks.contains k) = false := by simpa using h3.2
      have h5 : (ks.contains k) = true := by simpa using hk
      rw [h4] at h5
      exact absurd h5 (by simp)
    · rw [if_neg hmem] at h
      have h2 : k ∈ e.2 := h
      refine ⟨hlk ▸ h2, fun hpp _ => hmem (hp ▸ hpp)⟩

theorem lookup_p2kFilter_nodup {m : List (Str × List PKey)} {ps : List Str}
    {ks : List PKey} (h : ∀ p, (lookupKeys m p).Nodup) (p : Str) :
    (lookupKeys (m.map (fun e =>
      if e.1 ∈ ps then (e.1, e.2.filter (fun k2 => !(ks.contains k2))) else e)) p).Nodup := by
  have hff : ∀ e : Str × List PKey,
      ((if e.1 ∈ ps then (e.1, e.2.filter (fun k2 => !(ks.contains k2))) else e) :
        Str × List PKey).1 = e.1 := by
    intro e
    split <;> rfl
  rw [lookupKeys, find?_map_fst _ hff m p]
  cases hf : m.find? (fun e => e.1 = p) with
  | none => simp
  | some e =>
    have hlk : lookupKeys m p = e.2 := by rw [lookupKeys, hf]
    have he2 : e.2.Nodup := hlk ▸ h p
    simp only [Option.map_some']
    by_cases hmem : e.1 ∈ ps
    · rw [if_pos hmem]
      exact he2.filter _
    · rw [if_neg hmem]
      exact he2

theorem namesND_of_cnt_le {gs1 gs2 : List PGroup}
    (h : ∀ x, cnt gs1 x ≤ cnt gs2 x) (h2 : namesND gs2) : namesND gs1 := by
  have hsub : (itemsOf gs1).Subperm (itemsOf gs2) := by
    rw [List.subperm_ext_iff]
    intro x _
    rw [← cnt_eq_count, ← cnt_eq_count]
    exact h x
  obtain ⟨l, hp, hs⟩ := hsub
  rw [namesND] at h2 ⊢
  have h3 := (hs.map PItem.name).nodup h2
  exact ((hp.map PItem.name).nodup_iff).mp h3

/-- The state built by a guard-passing `dstep`. -/
def firedState (cfg : Cfg) (st : DState) (ps : List Str) : DState :=
  let ks := commonKeys st.p2k ps
  let gname := commonPfxStrip (ps.flatMap (fun p => ks.map (fun k => gnOf st.scanE p k)))
  let rem := removeAll st.scanE st.origs ps ks
  { origs := rem.1,
    p2k := st.p2k.map (fun e =>
      if e.1 ∈ ps then (e.1, e.2.filter (fun k => !(ks.contains k))) else e),
    scanE := st.scanE,
    facts := st.facts ++ [⟨gname, cfgRank cfg gname, ps, ks, rem.2⟩] }

theorem dstep_eq_pos (cfg : Cfg) (ms : Nat) (st : DState) (ps : List Str)
    (h : ms ≤ (commonKeys st.p2k ps).length ∧
      0 < linesSaved st.p2k ps (some (commonKeys st.p2k ps))) :
    dstep cfg ms st ps = firedState cfg st ps := by
  rw [dstep, firedState]
  dsimp only
  rw [if_pos h]

theorem dstep_eq_neg (cfg : Cfg) (ms : Nat) (st : DState) (ps : List Str)
    (h : ¬(ms ≤ (commonKeys st.p2k ps).length ∧
      0 < linesSaved st.p2k ps (some (commonKeys st.p2k ps)))) :
    dstep cfg ms st ps = st := by
  rw [dstep]
  dsimp only
  rw [if_neg h]

theorem factsCnt_append (fs : List FactRec) (e : FactRec) (x : PItem) :
    factsCnt (fs ++ [e]) x = factsCnt fs x + (expandF e).count x := by
  simp [factsCnt]

theorem firedState_spec (cfg : Cfg) (st : DState) (ps : List Str) (hps : ps.Nodup)
    (hinv : DInv st) (hlen : 1 < ps.length) :
    DInv (firedState cfg st ps) ∧
    (∀ x, cnt (firedState cfg st ps).origs x + factsCnt (firedState cfg st ps).facts x
      = cnt st.origs x + factsCnt st.facts x) ∧
    (∀ e ∈ (firedState cfg st ps).facts, e ∈ st.facts ∨ e.removed = expandF e) := by
  have hksnd : (commonKeys st.p2k ps).Nodup := commonKeys_nodup ps hinv.keysND
  have hlive : ∀ pr ∈ removedPairs ps (commonKeys st.p2k ps),
      pr.2 ∈ lookupKeys st.p2k pr.1 := by
    intro pr hpr
    have h2 := mem_removedPairs.mp hpr
    exact commonKeys_mem h2.2 pr.1 h2.1
  have hmapnd : ((removedPairs ps (commonKeys st.p2k ps)).map pairItem).Nodup := by
    refine List.Nodup.map_on ?_ (removedPairs_nodup hps hksnd)
    intro a ha b hb he
    have hka := hinv.keyMatch a.1 a.2 (hlive a ha)
    have hkb := hinv.keyMatch b.1 b.2 (hlive b hb)
    have h2 := pairItem_inj hka hkb he
    exact Prod.ext h2.1 h2.2
  have hpres : ∀ pr ∈ removedPairs ps (commonKeys st.p2k ps),
      hasItem st.origs (gnOf st.scanE pr.1 pr.2) (pairItem pr) := by
    intro pr hpr
    obtain ⟨g, hgm, hgn, hmem⟩ := hinv.keyItem pr.1 pr.2 (hlive pr hpr)
    exact ⟨g, hgm, hgn, hmem⟩
  have hrem := remGo_spec st.scanE (removedPairs ps (commonKeys st.p2k ps))
    st.origs [] hinv.gnamesO hmapnd hpres
  rw [← removeAll_eq_remGo] at hrem
  have hremd : (removeAll st.scanE st.origs ps (commonKeys st.p2k ps)).2
      = (removedPairs ps (commonKeys st.p2k ps)).map pairItem := by
    rw [hrem.1, List.nil_append]
  have hcnt : ∀ x, cnt (removeAll st.scanE st.origs ps (commonKeys st.p2k ps)).1 x
      + ((removedPairs ps (commonKeys st.p2k ps)).map pairItem).count x
      = cnt st.origs x := hrem.2.1
  refine ⟨?_, ?_, ?_⟩
  · constructor
    · intro p k hk
      have h2 := lookup_p2kFilter_sub (show k ∈ lookupKeys (st.p2k.map (fun e =>
        if e.1 ∈ ps then (e.1, e.2.filter
          (fun k2 => !((commonKeys st.p2k ps).contains k2))) else e)) p from hk)
      exact hinv.keyMatch p k h2.1
    · intro p k hk
      have h2 := lookup_p2kFilter_sub (show k ∈ lookupKeys (st.p2k.map (fun e =>
        if e.1 ∈ ps then (e.1, e.2.filter
          (fun k2 => !((commonKeys st.p2k ps).contains k2))) else e)) p from hk)
      have hnotrem : pairItem (p, k) ∉
          (removedPairs ps (commonKeys st.p2k ps)).map pairItem := by
        intro hc
        obtain ⟨pr, hpr, hpe⟩ := List.mem_map.mp hc
        have hka := hinv.keyMatch pr.1 pr.2 (hlive pr hpr)
        have hkb := hinv.keyMatch p k h2.1
        have h3 := pairItem_inj hka hkb hpe
        have h4 := mem_removedPairs.mp hpr
        exact h2.2 (h3.1 ▸ h4.1) (h3.2 ▸ h4.2)
      obtain ⟨g, hgm, hgn, hmem⟩ := hinv.keyItem p k h2.1
      have h5 := hrem.2.2.2 (gnOf st.scanE p k) (pairItem (p, k)) hnotrem
        ⟨g, hgm, hgn, hmem⟩
      obtain ⟨g1, hg1, hn1, hx1⟩ := h5
      exact ⟨g1, hg1, hn1, hx1⟩
    · refine namesND_of_cnt_le (fun x => ?_) hinv.namesO
      rw [show (firedState cfg st ps).origs
        = (removeAll st.scanE st.origs ps (commonKeys st.p2k ps)).1 from rfl]
      have := hcnt x
      omega
    · exact hrem.2.2.1
    · exact fun p => lookup_p2kFilter_nodup hinv.keysND p
  · intro x
    rw [show (firedState cfg st ps).origs
      = (removeAll st.scanE st.origs ps (commonKeys st.p2k ps)).1 from rfl]
    rw [show (firedState cfg st ps).facts = st.facts ++
      [⟨commonPfxStrip (ps.flatMap (fun p => (commonKeys st.p2k ps).map
          (fun k => gnOf st.scanE p k))),
        cfgRank cfg (commonPfxStrip (ps.flatMap (fun p => (commonKeys st.p2k ps).map
          (fun k => gnOf st.scanE p k)))), ps, commonKeys st.p2k ps,
        (removeAll st.scanE st.origs ps (commonKeys st.p2k ps)).2⟩] from rfl]
    rw [factsCnt_append]
    rw [show expandF ⟨commonPfxStrip (ps.flatMap (fun p => (commonKeys st.p2k ps).map
          (fun k => gnOf st.scanE p k))),
        cfgRank cfg (commonPfxStrip (ps.flatMap (fun p => (commonKeys st.p2k ps).map
          (fun k => gnOf st.scanE p k)))), ps, commonKeys st.p2k ps,
        (removeAll st.scanE st.origs ps (commonKeys st.p2k ps)).2⟩
      = (removedPairs ps (commonKeys st.p2k ps)).map pairItem from expandF_eq _]
    have := hcnt x
    omega
  · intro e he
    rw [show (firedState cfg st ps).facts = st.facts ++
      [⟨commonPfxStrip (ps.flatMap (fun p => (commonKeys st.p2k ps).map
          (fun k => gnOf st.scanE p k))),
        cfgRank cfg (commonPfxStrip (ps.flatMap (fun p => (commonKeys st.p2k ps).map
          (fun k => gnOf st.scanE p k)))), ps, commonKeys st.p2k ps,
        (removeAll st.scanE st.origs ps (commonKeys st.p2k ps)).2⟩] from rfl] at he
    rcases List.mem_append.mp he with h1 | h1
    · exact Or.inl h1
    · right
      have he2 := List.mem_singleton.mp h1
      subst he2
      rw [expandF_eq]
      exact hremd

theorem dstep_main (cfg : Cfg) (ms : Nat) (st : DState) (ps : List Str)
    (hps : ps.Nodup) (hinv : DInv st) :
    DInv (dstep cfg ms st ps) ∧
    (∀ x, cnt (dstep cfg ms st ps).origs x + factsCnt (dstep cfg ms st ps).facts x
      = cnt st.origs x + factsCnt st.facts x) ∧
    (∀ e ∈ (dstep cfg ms st ps).facts, e ∈ st.facts ∨ e.removed = expandF e) := by
  by_cases hgd : ms ≤ (commonKeys st.p2k ps).length ∧
      0 < linesSaved st.p2k ps (some (commonKeys st.p2k ps))
  · rw [dstep_eq_pos cfg ms st ps hgd]
    exact firedState_spec cfg st ps hps hinv (linesSaved_len hgd.2)
  · rw [dstep_eq_neg cfg ms st ps hgd]
    exact ⟨hinv, fun x => rfl, fun e he => Or.inl he⟩

theorem dedupGo_main (cfg : Cfg) (ms : Nat) (cands : List (List Str)) :
    ∀ st : DState, DInv st → (∀ ps ∈ cands, ps.Nodup) →
    DInv (dedupGo cfg ms st cands) ∧
    (∀ x, cnt (dedupGo cfg ms st cands).origs x + factsCnt (dedupGo cfg ms st cands).facts x
      = cnt st.origs x + factsCnt st.facts x) ∧
    (∀ e ∈ (dedupGo cfg ms st cands).facts, e ∈ st.facts ∨ e.removed = expandF e) := by
  induction cands with
  | nil =>
    intro st hinv _
    exact ⟨hinv, fun x => rfl, fun e he => Or.inl he⟩
  | cons c cs ih =>
    intro st hinv hnd
    have h1 := dstep_main cfg ms st c (hnd c (List.mem_cons_self _ _)) hinv
    have h2 := ih (dstep cfg ms st c) h1.1 (fun ps hp => hnd ps (List.mem_cons_of_mem _ hp))
    have hgo : dedupGo cfg ms st (c :: cs) = dedupGo cfg ms (dstep cfg ms st c) cs := by
      rw [dedupGo, List.foldl_cons, dedupGo]
    rw [hgo]
    refine ⟨h2.1, ?_, ?_⟩
    · intro x
      rw [h2.2.1 x, h1.2.1 x]
    · intro e he
      rcases h2.2.2 e he with h3 | h3
      · exact h1.2.2 e h3
      · exact Or.inr h3

/-! Phase 7: every candidate prefix subset is duplicate-free. -/

theorem insSorted_perm (lt : α → α → Bool) (l : List α) (x : α) :
    (insSorted lt l x).Perm (x :: l) := by
  induction l with
  | nil => exact List.Perm.refl _
  | cons y ys ih =>
    rw [insSorted]
    by_cases h : lt x y
    · rw [if_pos h]
    · rw [if_neg h]
      exact (ih.cons y).trans (List.Perm.swap x y ys)

theorem stableSortBy_perm (lt : α → α → Bool) (l : List α) :
    (stableSortBy lt l).Perm l := by
  suffices h : ∀ acc : List α, (l.foldl (insSorted lt) acc).Perm (acc ++ l) by
    simpa [stableSortBy] using h []
  induction l with
  | nil => intro acc; simp
  | cons x t ih =>
    intro acc
    rw [List.foldl_cons]
    refine (ih (insSorted lt acc x)).trans ?_
    refine (((insSorted_perm lt acc x).append_right t).trans ?_)
    exact List.perm_middle.symm

theorem combs_sublist : ∀ (l : List Str) (r : Nat) (c : List Str),
    c ∈ combs r l → c.Sublist l := by
  intro l
  induction l with
  | nil =>
    intro r c hc
    cases r with
    | zero =>
      simp [combs] at hc
      simp [hc]
    | succ n => simp [combs] at hc
  | cons x xs ih =>
    intro r c hc
    cases r with
    | zero =>
      simp [combs] at hc
      simp [hc]
    | succ n =>
      rw [combs] at hc
      rcases List.mem_append.mp hc with h1 | h1
      · obtain ⟨c2, hc2, he⟩ := List.mem_map.mp h1
        rw [← he]
        exact (ih n c2 hc2).cons₂ x
      · exact (ih (n + 1) c h1).cons x

theorem powersetFrom2_sublist {l : List Str} {c : List Str}
    (hc : c ∈ powersetFrom2 l) : c.Sublist l := by
  rw [powersetFrom2] at hc
  obtain ⟨r, _, h2⟩ := List.mem_flatMap.mp hc
  exact combs_sublist l r c h2

theorem chunkBy2_flatten : ∀ l : List Str, (chunkBy2 l).flatten = l := by
  intro l
  induction l with
  | nil => rfl
  | cons x xs ih =>
    rw [chunkBy2]
    cases hc2 : chunkBy2 xs with
    | nil =>
      rw [hc2] at ih
      simp only [List.flatten_nil] at ih
      dsimp only
      simp [← ih]
    | cons c0 cs =>
      rw [hc2] at ih
      dsimp only
      split
      · rw [List.flatten_cons, List.cons_append]
        rw [List.flatten_cons] at ih
        rw [ih]
      · rw [List.flatten_cons, ih]
        rfl

theorem mem_flatten_sublist {L : List (List Str)} {c : List Str} (h : c ∈ L) :
    c.Sublist L.flatten := by
  induction L with
  | nil => simp at h
  | cons a t ih =>
    rw [List.flatten_cons]
    rcases List.mem_cons.mp h with he | he
    · rw [he]
      exact List.sublist_append_left _ _
    · exact (ih he).trans (List.sublist_append_right _ _)

theorem chunkBy2_mem_sublist (l : List Str) (c : List Str) (hc : c ∈ chunkBy2 l) :
    c.Sublist l := by
  have h1 := mem_flatten_sublist hc
  rw [chunkBy2_flatten l] at h1
  exact h1

theorem fsts_addKey_mem (m : List (Str × List PKey)) (p : Str) (k : PKey)
    (h : p ∈ m.map (fun e => e.1)) :
    (addKey m p k).map (fun e => e.1) = m.map (fun e => e.1) := by
  induction m with
  | nil => simp at h
  | cons e t ih =>
    rw [addKey]
    by_cases he : e.1 = p
    · rw [if_pos he]
      simp
    · rw [if_neg he]
      rw [List.map_cons] at h
      rcases List.mem_cons.mp h with h1 | h1
      · exact absurd h1.symm he
      · rw [List.map_cons, List.map_cons, ih h1]

theorem fsts_addKey_notmem (m : List (Str × List PKey)) (p : Str) (k : PKey)
    (h : p ∉ m.map (fun e => e.1)) :
    (addKey m p k).map (fun e => e.1) = m.map (fun e => e.1) ++ [p] := by
  induction m with
  | nil => simp [addKey]
  | cons e t ih =>
    rw [addKey]
    simp only [List.map_cons, List.mem_cons] at h
    push_neg at h
    rw [if_neg (fun hc => h.1 hc.symm)]
    rw [List.map_cons, List.map_cons, ih h.2]
    simp

theorem fstsND_initP2k (es : List ScanE) :
    ((initP2k es).map (fun e => e.1)).Nodup := by
  suffices h : ∀ acc : List (Str × List PKey), (acc.map (fun e => e.1)).Nodup →
      ((es.foldl (fun m e => addKey m e.pfx e.key) acc).map (fun e => e.1)).Nodup by
    exact h [] (by simp)
  induction es with
  | nil => intro acc hacc; exact hacc
  | cons e t ih =>
    intro acc hacc
    rw [List.foldl_cons]
    refine ih _ ?_
    by_cases hm : e.pfx ∈ acc.map (fun e2 => e2.1)
    · rw [fsts_addKey_mem _ _ _ hm]
      exact hacc
    · rw [fsts_addKey_notmem _ _ _ hm]
      rw [List.nodup_append]
      refine ⟨hacc, by simp, ?_⟩
      intro a ha hb
      simp only [List.mem_singleton] at hb
      exact hm (hb ▸ ha)

theorem sortedCandsOf_nodup {m : List (Str × List PKey)}
    (hm : (m.map (fun e => e.1)).Nodup) {c : List Str}
    (hc : c ∈ sortedCandsOf m) : c.Nodup := by
  rw [sortedCandsOf] at hc
  have hc2 : c ∈ candsOf m := (stableSortBy_perm _ _).mem_iff.mp hc
  rw [candsOf] at hc2
  have hc3 := (List.mem_filter.mp hc2).1
  obtain ⟨ch, hch, hcm⟩ := List.mem_flatMap.mp hc3
  have h1 : ch.Sublist (stableSortBy strLtB (m.map (fun e => e.1))) :=
    chunkBy2_mem_sublist _ _ hch
  have h2 : c.Sublist ch := powersetFrom2_sublist hcm
  have hnd : (stableSortBy strLtB (m.map (fun e => e.1))).Nodup :=
    ((stableSortBy_perm _ _).nodup_iff).mpr hm
  exact ((h2.trans h1).nodup) hnd

theorem mkItems_names_nodup {items : List (Str × Str)}
    (h : (items.map Prod.fst).Nodup) : ((mkItems items).map PItem.name).Nodup := by
  rw [mkItems, List.map_map]
  have he : (PItem.name ∘ fun p : Str × Str => (⟨p.1, p.2⟩ : PItem)) = Prod.fst := rfl
  rw [he]
  exact ((List.filter_sublist items).map Prod.fst).nodup h

/-- Claim C2, amended: the reserved `https_crt_file` entry is extracted from
the mapping before grouping, so coverage holds for every other setting of
the diff mapping: each appears (directly, or through the expansion of the
factored group that absorbed it) exactly once across the final groups —
none lost, none duplicated. -/
theorem C2_coverage (cfg : Cfg) (ms : Nat) (items : List (Str × Str))
    (h : (items.map Prod.fst).Nodup) :
    (∀ x, cnt (pipeline cfg ms items).origs x + factsCnt (pipeline cfg ms items).facts x
      = (mkItems items).count x) ∧
    (∀ x ∈ mkItems items,
      cnt (pipeline cfg ms items).origs x + factsCnt (pipeline cfg ms items).facts x
        = 1) := by
  have hnames : namesND (collapseG cfg (buildGroups cfg (mkItems items))) :=
    namesND_collapseG _ _ (namesND_buildGroups _ _ (mkItems_names_nodup h))
  have hgnames : gnamesND (collapseG cfg (buildGroups cfg (mkItems items))) :=
    gnamesND_collapseG _ _ (gnamesND_buildGroups _ _)
  have hinv := initDInv _ hnames hgnames
  have hcands : ∀ ps ∈ sortedCandsOf
      (initDState (collapseG cfg (buildGroups cfg (mkItems items)))).p2k, ps.Nodup := by
    intro ps hp
    exact sortedCandsOf_nodup (fstsND_initP2k _) hp
  have hmain := dedupGo_main cfg ms _ _ hinv hcands
  have hpipe : pipeline cfg ms items = dedupGo cfg ms
      (initDState (collapseG cfg (buildGroups cfg (mkItems items))))
      (sortedCandsOf (initDState (collapseG cfg (buildGroups cfg (mkItems items)))).p2k) :=
    rfl
  have hcount : ∀ x, cnt (pipeline cfg ms items).origs x
      + factsCnt (pipeline cfg ms items).facts x = (mkItems items).count x := by
    intro x
    rw [hpipe, hmain.2.1 x]
    rw [show (initDState (collapseG cfg (buildGroups cfg (mkItems items)))).origs
      = collapseG cfg (buildGroups cfg (mkItems items)) from rfl]
    rw [show factsCnt (initDState
      (collapseG cfg (buildGroups cfg (mkItems items)))).facts x = 0 from rfl]
    rw [cnt_collapseG, cnt_buildGroups]
    omega
  refine ⟨hcount, ?_⟩
  intro x hx
  rw [hcount x]
  exact List.count_eq_one_of_mem (List.Nodup.of_map PItem.name (mkItems_names_nodup h)) hx

/-- Claim C3: expanding a factored loop group — substituting each concrete
prefix for the `${token}` reference in each synthetic item name — reproduces
exactly the items that were removed from the original groups, values
included. -/
theorem C3_factoring_soundness (cfg : Cfg) (ms : Nat) (items : List (Str × Str))
    (h : (items.map Prod.fst).Nodup) :
    ∀ e ∈ (pipeline cfg ms items).facts,
      e.fpres.flatMap (fun p => (loopGroup e).items.map
        (fun it => (⟨substTok (loopTok e.fpres) p it.name, it.value⟩ : PItem)))
        = e.removed := by
  have hnames : namesND (collapseG cfg (buildGroups cfg (mkItems items))) :=
    namesND_collapseG _ _ (namesND_buildGroups _ _ (mkItems_names_nodup h))
  have hgnames : gnamesND (collapseG cfg (buildGroups cfg (mkItems items))) :=
    gnamesND_collapseG _ _ (gnamesND_buildGroups _ _)
  have hinv := initDInv _ hnames hgnames
  have hcands : ∀ ps ∈ sortedCandsOf
      (initDState (collapseG cfg (buildGroups cfg (mkItems items)))).p2k, ps.Nodup := by
    intro ps hp
    exact sortedCandsOf_nodup (fstsND_initP2k _) hp
  have hmain := dedupGo_main cfg ms _ _ hinv hcands
  intro e he
  rcases hmain.2.2 e he with h1 | h1
  · exact absurd h1 (by simp [initDState])
  · rw [expand_via_subst, h1]

/-- The C2 witness mapping: one ordinary setting. -/
def itemsC2 : List (Str × Str) := [("wan_a".data, "1".data)]

/-- Counterexample to claim C2 as stated: a diff mapping holding only the
`https_crt_file` entry.  The ignore rules do not drop it, yet it appears in
no group at all — original or factored — because `HttpsCrtFile.extract`
pops it from the mapping before grouping. -/
theorem C2_counterexample :
    ignoreMatch crtName = false ∧
    itemsOf (pipeline cfg0 3
        [((crtName : Str), ("c".data : Str)), ("a".data, "b".data)]).origs
      = [⟨"a".data, "b".data⟩] ∧
    (pipeline cfg0 3 [((crtName : Str), ("c".data : Str)), ("a".data, "b".data)]).facts
      = [] := by
  decide

/-- Witness for `C2_coverage` on the one-setting mapping. -/
theorem C2_coverage_witness :
    (itemsC2.map Prod.fst).Nodup ∧
    (⟨"wan_a".data, "1".data⟩ : PItem) ∈ mkItems itemsC2 ∧
    cnt (pipeline cfg0 3 itemsC2).origs ⟨"wan_a".data, "1".data⟩
      + factsCnt (pipeline cfg0 3 itemsC2).facts ⟨"wan_a".data, "1".data⟩ = 1 :=
  ⟨by decide, by decide,
    (C2_coverage cfg0 3 itemsC2 (by decide)).2 _ (by decide)⟩

/-- Witness for `C3_factoring_soundness` at the C6 scenario's factored
group. -/
theorem C3_factoring_soundness_witness :
    (itemsC6.map Prod.fst).Nodup ∧
    eC6 ∈ (pipeline cfgC6 3 itemsC6).facts ∧
    eC6.fpres.flatMap (fun p => (loopGroup eC6).items.map
      (fun it => (⟨substTok (loopTok eC6.fpres) p it.name, it.value⟩ : PItem)))
      = eC6.removed :=
  ⟨by decide, by decide,
    C3_factoring_soundness cfgC6 3 itemsC6 (by decide) eC6 (by decide)⟩

/-! ### Ordering of the rendered output (claim C8) -/

theorem strLtB_irrefl : ∀ s : Str, strLtB s s = false := by
  intro s
  induction s with
  | nil => rfl
  | cons c t ih =>
    rw [strLtB, if_neg (lt_irrefl c), if_neg (lt_irrefl c)]
    exact ih

theorem strLtB_trans : ∀ a b c : Str, strLtB a b = true → strLtB b c = true →
    strLtB a c = true := by
  intro a
  induction a with
  | nil =>
    intro b c hab hbc
    cases b with
    | nil => exact absurd hab (by decide)
    | cons y ys =>
      cases c with
      | nil =>
        rw [show strLtB (y :: ys) ([] : Str) = false from rfl] at hbc
        exact absurd hbc (by simp)
      | cons z zs => rfl
  | cons x xs ih =>
    intro b c hab hbc
    cases b with
    | nil =>
      rw [show strLtB (x :: xs) ([] : Str) = false from rfl] at hab
      exact absurd hab (by simp)
    | cons y ys =>
      cases c with
      | nil =>
        rw [show strLtB (y :: ys) ([] : Str) = false from rfl] at hbc
        exact absurd hbc (by simp)
      | cons z zs =>
        rw [strLtB] at hab hbc ⊢
        by_cases hxy : x < y
        · by_cases hyz : y < z
          · rw [if_pos (lt_trans hxy hyz)]
          · rw [if_neg hyz] at hbc
            by_cases hzy : z < y
            · rw [if_pos hzy] at hbc
              exact absurd hbc (by simp)
            · have heq : y = z := le_antisymm (not_lt.mp hzy) (not_lt.mp hyz)
              rw [← heq, if_pos hxy]
        · rw [if_neg hxy] at hab
          by_cases hyx : y < x
          · rw [if_pos hyx] at hab
            exact absurd hab (by simp)
          · rw [if_neg hyx] at hab
            have heq : x = y := le_antisymm (not_lt.mp hyx) (not_lt.mp hxy)
            by_cases hyz : y < z
            · rw [heq, if_pos hyz]
            · rw [if_neg hyz] at hbc
              by_cases hzy : z < y
              · rw [if_pos hzy] at hbc
                exact absurd hbc (by simp)
              · rw [if_neg hzy] at hbc
                have heq2 : y = z := le_antisymm (not_lt.mp hzy) (not_lt.mp hyz)
                have hlt := ih ys zs hab hbc
                rw [heq, heq2, if_neg (lt_irrefl z), if_neg (lt_irrefl z)]
                exact hlt

/-- Transitivity of the (rank, name) lexicographic comparison. -/
theorem lexNS_trans (r1 r2 r3 : Nat) (n1 n2 n3 : Str)
    (h1 : r1 < r2 ∨ (r1 = r2 ∧ strLtB n1 n2 = true))
    (h2 : r2 < r3 ∨ (r2 = r3 ∧ strLtB n2 n3 = true)) :
    r1 < r3 ∨ (r1 = r3 ∧ strLtB n1 n3 = true) := by
  rcases h1 with h1 | ⟨he1, hs1⟩
  · rcases h2 with h2 | ⟨he2, hs2⟩
    · exact Or.inl (Nat.lt_trans h1 h2)
    · exact Or.inl (he2 ▸ h1)
  · rcases h2 with h2 | ⟨he2, hs2⟩
    · exact Or.inl (he1 ▸ h2)
    · exact Or.inr ⟨he1.trans he2, strLtB_trans n1 n2 n3 hs1 hs2⟩

theorem ifLex_iff (n1 n2 : Nat) (s1 s2 : Str) :
    (if n1 < n2 then true else if n2 < n1 then false else strLtB s1 s2) = true ↔
    (n1 < n2 ∨ (n1 = n2 ∧ strLtB s1 s2 = true)) := by
  by_cases h1 : n1 < n2
  · simp [h1]
  · by_cases h2 : n2 < n1
    · simp [h1, h2]
      omega
    · have he : n1 = n2 := by omega
      simp [h1, h2, he]

theorem itemLt_eq (a b : PItem) : itemLt a b =
    (if (itemSortKey a).1 < (itemSortKey b).1 then true
     else if (itemSortKey b).1 < (itemSortKey a).1 then false
     else strLtB (itemSortKey a).2 (itemSortKey b).2) := rfl

theorem itemLt_irrefl (a : PItem) : itemLt a a = false := by
  rw [itemLt_eq, if_neg (lt_irrefl _), if_neg (lt_irrefl _)]
  exact strLtB_irrefl _

theorem itemLt_trans (a b c : PItem) (hab : itemLt a b = true)
    (hbc : itemLt b c = true) : itemLt a c = true := by
  rw [itemLt_eq, ifLex_iff] at hab hbc ⊢
  exact lexNS_trans _ _ _ _ _ _ hab hbc

theorem groupKeyLt_iff (a b : PGroup) : groupKeyLt a b = true ↔
    ((groupLarge a = false ∧ groupLarge b = true) ∨
     (groupLarge a = groupLarge b ∧
       (a.grank < b.grank ∨ (a.grank = b.grank ∧ strLtB a.gname b.gname = true)))) := by
  rw [groupKeyLt]
  cases ha : groupLarge a <;> cases hb : groupLarge b <;>
    simp [Bool.or_eq_true, Bool.and_eq_true, decide_eq_true_eq]

theorem groupKeyLt_irrefl (g : PGroup) : groupKeyLt g g = false := by
  cases hgl : groupKeyLt g g
  · rfl
  · have h2 := (groupKeyLt_iff g g).mp hgl
    rcases h2 with ⟨h1, h2⟩ | ⟨_, h3 | ⟨_, h4⟩⟩
    · rw [h1] at h2
      exact absurd h2 (by simp)
    · exact absurd h3 (lt_irrefl _)
    · rw [strLtB_irrefl] at h4
      exact absurd h4 (by simp)

theorem groupKeyLt_trans (a b c : PGroup) (hab : groupKeyLt a b = true)
    (hbc : groupKeyLt b c = true) : groupKeyLt a c = true := by
  rw [groupKeyLt_iff] at hab hbc ⊢
  rcases hab with ⟨ha1, hb1⟩ | ⟨he1, hl1⟩
  · rcases hbc with ⟨hb2, hc2⟩ | ⟨he2, hl2⟩
    · rw [hb1] at hb2
      exact absurd hb2 (by simp)
    · exact Or.inl ⟨ha1, he2 ▸ hb1⟩
  · rcases hbc with ⟨hb2, hc2⟩ | ⟨he2, hl2⟩
    · exact Or.inl ⟨he1.trans hb2, hc2⟩
    · exact Or.inr ⟨he1.trans he2,
        lexNS_trans _ _ _ _ _ _ hl1 hl2⟩

theorem insSorted_sorted (lt : α → α → Bool) (irrefl : ∀ a, lt a a = false)
    (trans : ∀ a b c, lt a b = true → lt b c = true → lt a c = true) :
    ∀ (l : List α) (x : α), l.Pairwise (fun a b => lt b a = false) →
    (insSorted lt l x).Pairwise (fun a b => lt b a = false) := by
  intro l
  induction l with
  | nil =>
    intro x _
    simp [insSorted]
  | cons y ys ih =>
    intro x hs
    rw [List.pairwise_cons] at hs
    rw [insSorted]
    by_cases h : lt x y = true
    · rw [if_pos h]
      rw [List.pairwise_cons]
      constructor
      · intro b hb
        rcases List.mem_cons.mp hb with he | he
        · subst he
          cases hbx : lt b x
          · rfl
          · have h2 := trans b x b hbx h
            rw [irrefl b] at h2
            exact h2.symm
        · cases hbx : lt b x
          · rfl
          · have h2 := trans b x y hbx h
            rw [hs.1 b he] at h2
            exact h2.symm
      · rw [List.pairwise_cons]
        exact ⟨hs.1, hs.2⟩
    · rw [if_neg h]
      rw [List.pairwise_cons]
      constructor
      · intro b hb
        have hb2 : b ∈ x :: ys := (insSorted_perm lt ys x).mem_iff.mp hb
        rcases List.mem_cons.mp hb2 with he | he
        · subst he
          cases hxy : lt b y
          · rfl
          · exact absurd hxy h
        · exact hs.1 b he
      · exact ih x hs.2

theorem stableSortBy_sorted (lt : α → α → Bool) (irrefl : ∀ a, lt a a = false)
    (trans : ∀ a b c, lt a b = true → lt b c = true → lt a c = true) (l : List α) :
    (stableSortBy lt l).Pairwise (fun a b => lt b a = false) := by
  rw [stableSortBy]
  suffices h : ∀ acc : List α, acc.Pairwise (fun a b => lt b a = false) →
      (l.foldl (insSorted lt) acc).Pairwise (fun a b => lt b a = false) by
    exact h [] List.Pairwise.nil
  induction l with
  | nil =>
    intro acc hacc
    exact hacc
  | cons x t ih2 =>
    intro acc hacc
    rw [List.foldl_cons]
    exact ih2 _ (insSorted_sorted lt irrefl trans acc x hacc)

/-- In a list sorted by `itemLt`, the single-line items form a prefix: the
filter split of `Group.formatted` re-emits the sorted list intact. -/
theorem filter_split_of_sorted {l : List PItem}
    (hs : l.Pairwise (fun a b => itemLt b a = false)) :
    l.filter (fun it => newlinesOf it.name it.value = 0)
      ++ l.filter (fun it => !(newlinesOf it.name it.value = 0)) = l := by
  induction l with
  | nil => rfl
  | cons a t ih =>
    rw [List.pairwise_cons] at hs
    by_cases ha : newlinesOf a.name a.value = 0
    · rw [List.filter_cons_of_pos (by simpa using ha),
        List.filter_cons_of_neg (by simpa using ha)]
      rw [List.cons_append, ih hs.2]
    · have hall : ∀ b ∈ t, ¬ (newlinesOf b.name b.value = 0) := by
        intro b hb hb0
        have h1 := hs.1 b hb
        have h2 : itemLt b a = true := by
          rw [itemLt_eq, ifLex_iff]
          left
          rw [show (itemSortKey b).1 = newlinesOf b.name b.value from rfl,
            show (itemSortKey a).1 = newlinesOf a.name a.value from rfl]
          omega
        rw [h1] at h2
        exact absurd h2 (by simp)
      rw [List.filter_cons_of_neg (by simpa using ha),
        List.filter_cons_of_pos (by simpa using ha)]
      have hpos : t.filter (fun it => newlinesOf it.name it.value = 0) = [] := by
        rw [List.filter_eq_nil_iff]
        intro b hb
        simpa using hall b hb
      have hneg : t.filter (fun it => !(newlinesOf it.name it.value = 0)) = t := by
        rw [List.filter_eq_self]
        intro b hb
        simpa using hall b hb
      rw [hpos, hneg, List.nil_append]

/-- Claim C8, amended: the assembler sorts the groups ascending by the key
(large, rank, name), and within each group renders every single-line item
before every multi-line item; the items are ordered by the sort key
(newline count, lowercased name with underscores replaced by spaces) —
not by the raw case-insensitive name. -/
theorem C8_ordering (gs : List PGroup) (g : PGroup) :
    (sortGroups gs).Perm gs ∧
    (sortGroups gs).Pairwise (fun a b => groupKeyLt b a = false) ∧
    (sortItems g.items).Perm g.items ∧
    (sortItems g.items).Pairwise (fun a b => itemLt b a = false) ∧
    (sortItems g.items).filter (fun it => newlinesOf it.name it.value = 0)
      ++ (sortItems g.items).filter (fun it => !(newlinesOf it.name it.value = 0))
      = sortItems g.items := by
  have hsg : (sortGroups gs).Pairwise (fun a b => groupKeyLt b a = false) :=
    stableSortBy_sorted groupKeyLt groupKeyLt_irrefl groupKeyLt_trans gs
  have hsi : (sortItems g.items).Pairwise (fun a b => itemLt b a = false) :=
    stableSortBy_sorted itemLt itemLt_irrefl itemLt_trans g.items
  exact ⟨stableSortBy_perm _ _, hsg, stableSortBy_perm _ _, hsi,
    filter_split_of_sorted hsi⟩

/-- Counterexample to claim C8 as stated: two single-line settings `a_b`
and `a.c`.  Ascending case-insensitive name order puts `a.c` first
(`.` < `_`), but the rendered order puts `a_b` first, because the sort key
lowercases the name and replaces underscores with spaces (` ` < `.`). -/
theorem C8_counterexample :
    sortItems [⟨"a.c".data, "v".data⟩, ⟨"a_b".data, "v".data⟩]
      = [⟨"a_b".data, "v".data⟩, ⟨"a.c".data, "v".data⟩] ∧
    strLtB ("a.c".data.map Char.toLower) ("a_b".data.map Char.toLower) = true ∧
    newlinesOf "a.c".data "v".data = 0 ∧
    newlinesOf "a_b".data "v".data = 0 := by
  decide

end TomatoNvram
